import Mathlib

/-!
# FKS perfect hashing (`src/main.cpp`): embedding and checked properties

The C++ program builds a two-level static set of `int` keys.  The embedding
below follows `src/main.cpp` function by function.

* `int` is 32 bits wide and `size_t` / `unsigned long long` 64 bits.  `int`
  values are `Int`; unsigned values are `Nat` reduced modulo `2^64`; the
  conversions between them are explicit (`toSizeT`, `toInt`) and modular.
* Signed `int` arithmetic wraps modulo `2^32` (`wrapInt`), as it does in the
  compiled program.
* An operation that has no result in C++ (a vector index out of range, `%` by
  zero) or that throws (a vector of impossible length) is a `Fault`; functions
  return `Except Fault _`, and a run "returns" when the result is `.ok _`.
* The process-wide `random_generator` is the list of the `(multiplier,
  increment)` pairs that the coming calls of `Randomize` will draw.  Each
  pass of a retry loop consumes one pair; a loop that is still retrying when
  the list is used up ends in `Fault.drawsExhausted`.
-/

namespace FKS

/-! ## Machine integers -/

/-- `INT_MAX` of a 32-bit `int`. -/
def INT_MAX : Int := 2147483647

/-- `INT_MIN` of a 32-bit `int`. -/
def INT_MIN : Int := -2147483648

/-- Number of values of a 64-bit `size_t` / `unsigned long long`. -/
def SIZE_MOD : Nat := 18446744073709551616

/-- Conversion `int -> size_t` (value modulo `2^64`). -/
def toSizeT (i : Int) : Nat := (i % (SIZE_MOD : Int)).toNat

/-- Conversion `size_t -> int` (value modulo `2^32`, as a two's complement
32-bit number). -/
def toInt (n : Nat) : Int := ((n + 2147483648) % 4294967296 : Nat) - 2147483648

/-- Result of an `int` operation whose value over the integers is `i`:
two's complement wrap-around. -/
def wrapInt (i : Int) : Int := (i + 2147483648) % 4294967296 - 2147483648

/-- What can go wrong in a run. -/
inductive Fault where
  | moduloByZero
  | outOfRange
  | lengthError
  | drawsExhausted
  deriving DecidableEq, Repr

instance {ε α : Type} [DecidableEq ε] [DecidableEq α] : DecidableEq (Except ε α)
  | .ok a, .ok b =>
    if h : a = b then isTrue (by rw [h]) else isFalse (fun h1 => h (Except.ok.inj h1))
  | .error e, .error f =>
    if h : e = f then isTrue (by rw [h]) else isFalse (fun h1 => h (Except.error.inj h1))
  | .ok _, .error _ => isFalse (fun h => by cases h)
  | .error _, .ok _ => isFalse (fun h => by cases h)

/-- One call of `Randomize`: the two numbers that `multiplier_distribution`
and `increment_distribution` take from `random_generator`. -/
structure Draw where
  multiplier : Nat
  increment : Nat
  deriving DecidableEq, Repr

/-! ## `LinearHashFunction` -/

/-- `LinearHashFunction::PRIME_BASE_`. -/
def PRIME_BASE_ : Nat := 2147483647

/-- Range of the two distributions in `Randomize`:
`1 <= multiplier <= PRIME_BASE_ - 1`, `0 <= increment <= PRIME_BASE_ - 1`. -/
def Draw.inRange (d : Draw) : Prop :=
  1 ≤ d.multiplier ∧ d.multiplier ≤ PRIME_BASE_ - 1 ∧ d.increment ≤ PRIME_BASE_ - 1

instance (d : Draw) : Decidable d.inRange := by
  unfold Draw.inRange; infer_instance

/-- Fields of `class LinearHashFunction`. -/
structure LinearHashFunction where
  multiplier_ : Nat
  increment_ : Nat
  image_size_ : Nat
  deriving DecidableEq, Repr

/-- `explicit LinearHashFunction(int imageSize)`. -/
def LinearHashFunction.new (imageSize : Int) : LinearHashFunction :=
  { multiplier_ := 1, increment_ := 0, image_size_ := toSizeT imageSize }

/-- `void Randomize()`, with the drawn pair given. -/
def LinearHashFunction.Randomize (self : LinearHashFunction) (d : Draw) :
    LinearHashFunction :=
  { self with multiplier_ := d.multiplier % SIZE_MOD, increment_ := d.increment % SIZE_MOD }

/-- `size_t operator()(size_t value) const`:
`(multiplier_*value + increment_) % PRIME_BASE_ % image_size_` in unsigned
64-bit arithmetic. -/
def LinearHashFunction.call (self : LinearHashFunction) (value : Nat) :
    Except Fault Nat :=
  if self.image_size_ = 0 then .error .moduloByZero
  else .ok ((self.multiplier_ * value + self.increment_) % SIZE_MOD
              % PRIME_BASE_ % self.image_size_)

/-- The hash of an `int` key: the argument is converted to `size_t`. -/
def LinearHashFunction.hashKey (self : LinearHashFunction) (key : Int) :
    Except Fault Nat :=
  self.call (toSizeT key)

/-! ## `HashTable` -/

/-- `HashTable::UNDEFINED`. -/
def UNDEFINED : Int := INT_MAX

/-- Fields of `class HashTable`. -/
structure HashTable where
  hash_ : LinearHashFunction
  table_ : List Int
  deriving DecidableEq, Repr

/-- `HashTable()`. -/
def HashTable.new : HashTable :=
  { hash_ := LinearHashFunction.new 0, table_ := [] }

/-- The `for` loop of `HashTable::Initialize` over the values still to be
placed; the result is `have_collisions` and the table. -/
def HashTable.place (hash : LinearHashFunction) :
    List Int → List Int → Except Fault (Bool × List Int)
  | [], table => .ok (false, table)
  | v :: rest, table =>
    match hash.hashKey v with
    | .error f => .error f
    | .ok slot =>
      match table[slot]? with
      | none => .error .outOfRange
      | some current_value =>
        if current_value ≠ UNDEFINED ∧ current_value ≠ v then
          .ok (true, table.set slot v)
        else
          HashTable.place hash rest (table.set slot v)

/-- The `do ... while (have_collisions)` loop of `HashTable::Initialize`. -/
def HashTable.retry (values : List Int) (size : Int) :
    LinearHashFunction → List Draw → Except Fault (HashTable × List Draw)
  | _, [] => .error .drawsExhausted
  | hash, d :: draws =>
    match HashTable.place (hash.Randomize d) values
        (List.replicate (toSizeT size) UNDEFINED) with
    | .error f => .error f
    | .ok (have_collisions, table) =>
      if have_collisions then HashTable.retry values size (hash.Randomize d) draws
      else .ok ({ hash_ := hash.Randomize d, table_ := table }, draws)

/-- `void HashTable::Initialize(const vector<int>& values, int size)`. -/
def HashTable.Initialize (self : HashTable) (values : List Int) (size : Int)
    (draws : List Draw) : Except Fault (HashTable × List Draw) :=
  if values.length = 0 ∨ size = 0 then
    .ok ({ self with table_ := [] }, draws)
  else if size < 0 then .error .lengthError
  else HashTable.retry values size (LinearHashFunction.new size) draws

/-- `bool HashTable::Contains(int element) const`. -/
def HashTable.Contains (self : HashTable) (element : Int) : Except Fault Bool :=
  if self.table_.length = 0 then .ok false
  else
    match self.hash_.hashKey element with
    | .error f => .error f
    | .ok slot =>
      match self.table_[slot]? with
      | none => .error .outOfRange
      | some stored => .ok (decide (element = stored))

/-! ## `FixedSet` -/

/-- `FixedSet::MEMORY_SIZE_FACTOR_`. -/
def MEMORY_SIZE_FACTOR_ : Int := 4

/-- Fields of `class FixedSet`. -/
structure FixedSet where
  primary_hash_ : LinearHashFunction
  secondary_hash_tables_ : List HashTable
  deriving DecidableEq, Repr

/-- `FixedSet()`. -/
def FixedSet.new : FixedSet :=
  { primary_hash_ := LinearHashFunction.new 0, secondary_hash_tables_ := [] }

/-- First loop of `CheckPrimaryHash`: `++hash_table_sizes[hash(*value)]` for
each value.  The counters are `int`, so the increment wraps. -/
def FixedSet.countSizes (hash : LinearHashFunction) :
    List Int → List Int → Except Fault (List Int)
  | [], hash_table_sizes => .ok hash_table_sizes
  | value :: rest, hash_table_sizes =>
    match hash.hashKey value with
    | .error f => .error f
    | .ok i =>
      match hash_table_sizes[i]? with
      | none => .error .outOfRange
      | some c => FixedSet.countSizes hash rest (hash_table_sizes.set i (wrapInt (c + 1)))

/-- Second loop of `CheckPrimaryHash`: `total_size += (*it) * (*it)`, in
`int` arithmetic: the product and the sum wrap. -/
def FixedSet.sumSquares : List Int → Int → Int
  | [], total_size => total_size
  | c :: rest, total_size =>
    FixedSet.sumSquares rest (wrapInt (total_size + wrapInt (c * c)))

/-- `bool FixedSet::CheckPrimaryHash(values, hash) const`.  The comparison
`total_size < MEMORY_SIZE_FACTOR_ * values.size()` is made in `size_t`. -/
def FixedSet.CheckPrimaryHash (values : List Int) (hash : LinearHashFunction) :
    Except Fault Bool :=
  match FixedSet.countSizes hash values (List.replicate values.length 0) with
  | .error f => .error f
  | .ok hash_table_sizes =>
    .ok (decide (toSizeT (FixedSet.sumSquares hash_table_sizes 0)
          < (toSizeT MEMORY_SIZE_FACTOR_ * values.length) % SIZE_MOD))

/-- The loop of `CreatePrimaryHashTable`:
`hash_table[hash(*value)].push_back(*value)`. -/
def FixedSet.fillBuckets (hash : LinearHashFunction) :
    List Int → List (List Int) → Except Fault (List (List Int))
  | [], hash_table => .ok hash_table
  | value :: rest, hash_table =>
    match hash.hashKey value with
    | .error f => .error f
    | .ok i =>
      match hash_table[i]? with
      | none => .error .outOfRange
      | some bucket =>
        FixedSet.fillBuckets hash rest (hash_table.set i (bucket ++ [value]))

/-- `vector<vector<int>> FixedSet::CreatePrimaryHashTable(values, hash) const`. -/
def FixedSet.CreatePrimaryHashTable (values : List Int) (hash : LinearHashFunction) :
    Except Fault (List (List Int)) :=
  FixedSet.fillBuckets hash values (List.replicate values.length [])

/-- The loop `do primary_hash_.Randomize(); while (!CheckPrimaryHash(...))`. -/
def FixedSet.choosePrimary (input_values : List Int) :
    LinearHashFunction → List Draw → Except Fault (LinearHashFunction × List Draw)
  | _, [] => .error .drawsExhausted
  | hash, d :: draws =>
    match FixedSet.CheckPrimaryHash input_values (hash.Randomize d) with
    | .error f => .error f
    | .ok accepted =>
      if accepted then .ok (hash.Randomize d, draws)
      else FixedSet.choosePrimary input_values (hash.Randomize d) draws

/-- `vector::resize(n)` on the vector of inner tables: cut to `n` elements or
fill up with default-constructed tables. -/
def resizeTables (tables : List HashTable) (n : Nat) : List HashTable :=
  tables.take n ++ List.replicate (n - tables.length) HashTable.new

/-- The last loop of `FixedSet::Initialize`,
`for (int index = 0; index != secondary_subsets.size(); ++index)`: table
`index` is initialised from collision list `index`, with
`int table_size = size * size` (the product is taken in `size_t` and converted
to `int`).  The two vectors have the same length after `resize`, so the loop
walks them together, the lists given being what is left from position `index`
on; a missing table is an index out of range.  `index` is an `int` and `++index`
wraps: once it is negative it differs, converted to `size_t`, from the size and
lies beyond both vectors, so the next access is out of range. -/
def FixedSet.initTables :
    Int → List HashTable → List (List Int) → List Draw →
      Except Fault (List HashTable × List Draw)
  | index, table :: tables, secondary_values :: subsets, draws =>
    if index < 0 then .error .outOfRange
    else
      match table.Initialize secondary_values
          (toInt (secondary_values.length * secondary_values.length % SIZE_MOD)) draws with
      | .error f => .error f
      | .ok (table1, draws1) =>
        match FixedSet.initTables (wrapInt (index + 1)) tables subsets draws1 with
        | .error f => .error f
        | .ok (tables1, draws2) => .ok (table1 :: tables1, draws2)
  | index, tables, [], draws =>
    if index < 0 then .error .outOfRange else .ok (tables, draws)
  | _, [], _ :: _, _ => .error .outOfRange

/-- `void FixedSet::Initialize(const vector<int>& input_values)`. -/
def FixedSet.Initialize (self : FixedSet) (input_values : List Int)
    (draws : List Draw) : Except Fault (FixedSet × List Draw) :=
  if input_values.length = 0 then .ok (self, draws)
  else
    match FixedSet.choosePrimary input_values
        (LinearHashFunction.new (toInt input_values.length)) draws with
    | .error f => .error f
    | .ok (primary, draws1) =>
      match FixedSet.CreatePrimaryHashTable input_values primary with
      | .error f => .error f
      | .ok secondary_subsets =>
        match FixedSet.initTables 0
            (resizeTables self.secondary_hash_tables_ secondary_subsets.length)
            secondary_subsets draws1 with
        | .error f => .error f
        | .ok (tables, draws2) =>
          .ok ({ primary_hash_ := primary, secondary_hash_tables_ := tables }, draws2)

/-- `bool FixedSet::Contains(int element) const`; `index` is an `int`. -/
def FixedSet.Contains (self : FixedSet) (element : Int) : Except Fault Bool :=
  if self.secondary_hash_tables_.length = 0 then .ok false
  else
    match self.primary_hash_.hashKey element with
    | .error f => .error f
    | .ok h =>
      match self.secondary_hash_tables_[toSizeT (toInt h)]? with
      | none => .error .outOfRange
      | some table => table.Contains element

/-- The program's `main` up to the first query: a fresh `FixedSet` and one
call of `Initialize`. -/
def build (keys : List Int) (draws : List Draw) : Except Fault (FixedSet × List Draw) :=
  FixedSet.new.Initialize keys draws

/-! ## Vocabulary for the statements -/

/-- The key `key` has hash value `i` under `self`. -/
def LinearHashFunction.sendsTo (self : LinearHashFunction) (i : Nat) (key : Int) : Bool :=
  match self.hashKey key with
  | .ok j => j == i
  | .error _ => false

/-- Number of positions of `keys` whose key has hash value `i`. -/
def occupancy (hash : LinearHashFunction) (keys : List Int) (i : Nat) : Nat :=
  keys.countP (hash.sendsTo i)

/-- Sum over the bucket indices `0 .. n-1` of the squared occupancies. -/
def sumSquaredOccupancies (hash : LinearHashFunction) (keys : List Int) (n : Nat) : Nat :=
  ((List.range n).map (fun i => occupancy hash keys i * occupancy hash keys i)).sum

/-- The formula of the specification, `h(x) = ((multiplier*x + increment) mod
PRIME) mod imageSize` with `PRIME = 2^31 - 1`, over the mathematical
integers. -/
def specHashFormula (a b m : Nat) (x : Int) : Int :=
  (((a : Int) * x + b) % (2147483647 : Int)) % (m : Int)

/-- Two inner tables with the same slots and, unless they have no slot, the
same accepted hash function. -/
def HashTable.sameAs (t t1 : HashTable) : Prop :=
  t.table_ = t1.table_ ∧ (t.table_ ≠ [] → t.hash_ = t1.hash_)

/-- Number of members `(a, b)` of the hash family, `1 <= a <= P-1` and
`0 <= b <= P-1`, under which the keys `x` and `y` get the same hash value for
image size `m`. -/
def collisionCount (m : Nat) (x y : Int) : Nat :=
  ((Finset.Icc 1 (PRIME_BASE_ - 1) ×ˢ Finset.range PRIME_BASE_).filter
    (fun ab => LinearHashFunction.hashKey ⟨ab.1, ab.2, m⟩ x
      = LinearHashFunction.hashKey ⟨ab.1, ab.2, m⟩ y)).card

theorem hashKey_lt {h : LinearHashFunction} {k : Int} {i : Nat}
    (H : h.hashKey k = .ok i) : i < h.image_size_ := by
  unfold LinearHashFunction.hashKey LinearHashFunction.call at H
  split at H
  · cases H
  · rename_i hz
    cases H
    exact Nat.mod_lt _ (Nat.pos_of_ne_zero hz)

theorem hashKey_total {h : LinearHashFunction} (hz : h.image_size_ ≠ 0) (k : Int) :
    ∃ i, h.hashKey k = .ok i ∧ i < h.image_size_ := by
  refine ⟨(h.multiplier_ * toSizeT k + h.increment_) % SIZE_MOD % PRIME_BASE_
    % h.image_size_, ?_, Nat.mod_lt _ (Nat.pos_of_ne_zero hz)⟩
  simp only [LinearHashFunction.hashKey, LinearHashFunction.call, hz, if_false]

theorem hashKey_ok_ne_zero {h : LinearHashFunction} {k : Int} {i : Nat}
    (H : h.hashKey k = .ok i) : h.image_size_ ≠ 0 := by
  have := hashKey_lt H
  omega

/-- One step of the loops: what `place` does on a non-empty list. -/
theorem place_cons_ok {hash : LinearHashFunction} {v : Int} {rest t : List Int}
    {c : Bool} {t1 : List Int}
    (H : HashTable.place hash (v :: rest) t = .ok (c, t1)) :
    ∃ slot cur, hash.hashKey v = .ok slot ∧ t[slot]? = some cur ∧
      ((cur ≠ UNDEFINED ∧ cur ≠ v ∧ c = true ∧ t1 = t.set slot v) ∨
       ((cur = UNDEFINED ∨ cur = v) ∧
          HashTable.place hash rest (t.set slot v) = .ok (c, t1))) := by
  unfold HashTable.place at H
  split at H
  · cases H
  · rename_i slot hslot
    split at H
    · cases H
    · rename_i cur hcur
      refine ⟨slot, cur, hslot, hcur, ?_⟩
      split at H
      · rename_i hc
        cases H
        exact Or.inl ⟨hc.1, hc.2, rfl, rfl⟩
      · rename_i hc
        refine Or.inr ⟨?_, H⟩
        by_cases h1 : cur = UNDEFINED
        · exact Or.inl h1
        · right
          by_contra h2
          exact hc ⟨h1, h2⟩

theorem place_length {hash : LinearHashFunction} :
    ∀ (vs t : List Int) (c : Bool) (t1 : List Int),
      HashTable.place hash vs t = .ok (c, t1) → t1.length = t.length
  | [], t, c, t1, H => by
    simp only [HashTable.place, Except.ok.injEq, Prod.mk.injEq] at H
    rw [← H.2]
  | v :: rest, t, c, t1, H => by
    obtain ⟨slot, cur, _, _, h | h⟩ := place_cons_ok H
    · rw [h.2.2.2, List.length_set]
    · rw [place_length rest _ c t1 h.2, List.length_set]

theorem place_keeps {hash : LinearHashFunction} :
    ∀ (vs t t1 : List Int) (s : Nat) (w : Int),
      HashTable.place hash vs t = .ok (false, t1) →
      t[s]? = some w → w ≠ UNDEFINED → t1[s]? = some w
  | [], t, t1, s, w, H, hw, _ => by
    simp only [HashTable.place, Except.ok.injEq, Prod.mk.injEq, true_and] at H
    rw [← H]; exact hw
  | v :: rest, t, t1, s, w, H, hw, hne => by
    obtain ⟨slot, cur, _, hcur, h | h⟩ := place_cons_ok H
    · exact absurd h.2.2.1 (by simp)
    · apply place_keeps rest _ t1 s w h.2 _ hne
      by_cases hs : slot = s
      · subst hs
        have hcw : cur = w := by rw [hcur] at hw; exact Option.some.inj hw
        have hwv : w = v := by
          rcases h.1 with h1 | h1
          · exact absurd (hcw ▸ h1) hne
          · rw [← hcw, h1]
        rw [List.getElem?_set_self', hw, hwv]; rfl
      · rw [List.getElem?_set_ne hs]; exact hw

theorem place_stores {hash : LinearHashFunction} :
    ∀ (vs t t1 : List Int) (v : Int),
      HashTable.place hash vs t = .ok (false, t1) →
      v ∈ vs → v ≠ UNDEFINED →
      ∃ s, hash.hashKey v = .ok s ∧ t1[s]? = some v
  | [], _, _, _, _, hv, _ => by cases hv
  | u :: rest, t, t1, v, H, hv, hne => by
    obtain ⟨slot, cur, hslot, hcur, h | h⟩ := place_cons_ok H
    · exact absurd h.2.2.1 (by simp)
    · rcases List.mem_cons.mp hv with rfl | hv
      · refine ⟨slot, hslot, place_keeps rest _ t1 slot v h.2 ?_ hne⟩
        rw [List.getElem?_set_self', hcur]; rfl
      · exact place_stores rest _ t1 v h.2 hv hne

theorem place_origin {hash : LinearHashFunction} :
    ∀ (vs t t1 : List Int) (c : Bool) (s : Nat) (w : Int),
      HashTable.place hash vs t = .ok (c, t1) →
      t1[s]? = some w → t[s]? = some w ∨ (w ∈ vs ∧ hash.hashKey w = .ok s)
  | [], t, t1, c, s, w, H, hw => by
    simp only [HashTable.place, Except.ok.injEq, Prod.mk.injEq] at H
    rw [← H.2] at hw; exact Or.inl hw
  | v :: rest, t, t1, c, s, w, H, hw => by
    obtain ⟨slot, cur, hslot, hcur, h | h⟩ := place_cons_ok H
    · rw [h.2.2.2] at hw
      by_cases hs : slot = s
      · subst hs
        rw [List.getElem?_set_self', hcur] at hw
        have : v = w := by simpa using hw
        subst this
        exact Or.inr ⟨List.mem_cons_self _ _, hslot⟩
      · rw [List.getElem?_set_ne hs] at hw; exact Or.inl hw
    · rcases place_origin rest _ t1 c s w h.2 hw with h1 | h1
      · by_cases hs : slot = s
        · subst hs
          rw [List.getElem?_set_self', hcur] at h1
          have : v = w := by simpa using h1
          subst this
          exact Or.inr ⟨List.mem_cons_self _ _, hslot⟩
        · rw [List.getElem?_set_ne hs] at h1; exact Or.inl h1
      · exact Or.inr ⟨List.mem_cons_of_mem _ h1.1, h1.2⟩

/-- What an accepted trial of `HashTable::Initialize` leaves behind. -/
structure HashTable.Accepted (t : HashTable) (values : List Int) : Prop where
  image : t.hash_.image_size_ = t.table_.length
  size_ne : t.table_.length ≠ 0
  placed : HashTable.place t.hash_ values
      (List.replicate t.table_.length UNDEFINED) = .ok (false, t.table_)

theorem retry_accepted (values : List Int) (size : Int) :
    ∀ (draws : List Draw) (hash : LinearHashFunction) (t : HashTable) (rest : List Draw),
      values ≠ [] → hash.image_size_ = toSizeT size →
      HashTable.retry values size hash draws = .ok (t, rest) →
      t.Accepted values
  | [], _, _, _, _, _, H => by simp [HashTable.retry] at H
  | d :: draws, hash, t, rest, hv, himg, H => by
    unfold HashTable.retry at H
    split at H
    · cases H
    · rename_i c table hp
      have hlen := place_length _ _ _ _ hp
      split at H
      · exact retry_accepted values size draws _ t rest hv (by simpa [LinearHashFunction.Randomize] using himg) H
      · rename_i hc
        simp only [Except.ok.injEq, Prod.mk.injEq] at H
        obtain ⟨rfl, -⟩ := H
        have hc' : c = false := by simpa using hc
        subst hc'
        simp only [List.length_replicate] at hlen
        obtain ⟨v, rest', rfl⟩ := List.exists_cons_of_ne_nil hv
        obtain ⟨slot, cur, hslot, -, -⟩ := place_cons_ok hp
        have hz := hashKey_ok_ne_zero hslot
        have himg' : (hash.Randomize d).image_size_ = toSizeT size := by
          simpa [LinearHashFunction.Randomize] using himg
        refine ⟨by simp [hlen, himg'], ?_, ?_⟩
        · simp only [hlen]; rw [← himg']; exact hz
        · simp only [hlen]; exact hp

theorem Initialize_cases {self t : HashTable} {values : List Int} {size : Int}
    {draws rest : List Draw}
    (H : self.Initialize values size draws = .ok (t, rest)) :
    (t.table_ = [] ∧ (values = [] ∨ size = 0)) ∨
      (values ≠ [] ∧ 0 < size ∧ t.Accepted values) := by
  unfold HashTable.Initialize at H
  split at H
  · rename_i h
    simp only [Except.ok.injEq, Prod.mk.injEq] at H
    obtain ⟨rfl, -⟩ := H
    left
    refine ⟨rfl, ?_⟩
    rcases h with h | h
    · exact Or.inl (List.length_eq_zero.mp h)
    · exact Or.inr h
  · rename_i h
    push_neg at h
    split at H
    · cases H
    · rename_i hs
      right
      have hv : values ≠ [] := fun h0 => h.1 (by simp [h0])
      refine ⟨hv, by omega, retry_accepted values size draws _ t rest hv rfl H⟩

theorem sendsTo_iff {hash : LinearHashFunction} {i : Nat} {k : Int} :
    hash.sendsTo i k = true ↔ hash.hashKey k = .ok i := by
  unfold LinearHashFunction.sendsTo
  split
  · rename_i j hj
    rw [hj]
    simp
  · rename_i f hf
    rw [hf]
    simp

theorem Contains_of_nil {t : HashTable} (h : t.table_ = []) (x : Int) :
    t.Contains x = .ok false := by
  simp [HashTable.Contains, h]

theorem HashTable.Accepted.slot {t : HashTable} {vs : List Int} (h : t.Accepted vs) (x : Int) :
    ∃ s w, t.hash_.hashKey x = .ok s ∧ t.table_[s]? = some w ∧
      t.Contains x = .ok (decide (x = w)) := by
  have hz : t.hash_.image_size_ ≠ 0 := by rw [h.image]; exact h.size_ne
  obtain ⟨s, hs, hlt⟩ := hashKey_total hz x
  rw [h.image] at hlt
  refine ⟨s, t.table_[s], hs, List.getElem?_eq_getElem hlt, ?_⟩
  unfold HashTable.Contains
  rw [if_neg h.size_ne]
  simp only [hs, List.getElem?_eq_getElem hlt]

theorem HashTable.Accepted.contains_mem {t : HashTable} {vs : List Int} (h : t.Accepted vs)
    {x : Int} (hx : x ∈ vs) (hne : x ≠ UNDEFINED) : t.Contains x = .ok true := by
  obtain ⟨s, w, hs, hw, hc⟩ := h.slot x
  obtain ⟨s1, hs1, hw1⟩ := place_stores _ _ _ x h.placed hx hne
  rw [hs] at hs1
  cases hs1
  rw [hw] at hw1
  cases hw1
  rw [hc]; simp

theorem HashTable.Accepted.contains_not_mem {t : HashTable} {vs : List Int} (h : t.Accepted vs)
    {x : Int} (hx : x ∉ vs) (hne : x ≠ UNDEFINED) : t.Contains x = .ok false := by
  obtain ⟨s, w, hs, hw, hc⟩ := h.slot x
  rw [hc]
  have hxw : x ≠ w := by
    rintro rfl
    rcases place_origin _ _ _ _ s x h.placed hw with h1 | h1
    · have hlt : s < t.table_.length := by
        rcases List.getElem?_eq_some.mp hw with ⟨hlt, -⟩
        exact hlt
      rw [List.getElem?_replicate_of_lt hlt] at h1
      exact hne (Option.some.inj h1).symm
    · exact hx h1.1
  simp [hxw]

theorem HashTable.Accepted.injective {t : HashTable} {vs : List Int} (h : t.Accepted vs)
    {x y : Int} (hx : x ∈ vs) (hy : y ∈ vs) (hxu : x ≠ UNDEFINED) (hyu : y ≠ UNDEFINED)
    {s : Nat} (hsx : t.hash_.hashKey x = .ok s) (hsy : t.hash_.hashKey y = .ok s) :
    x = y := by
  obtain ⟨s1, hs1, hw1⟩ := place_stores _ _ _ x h.placed hx hxu
  obtain ⟨s2, hs2, hw2⟩ := place_stores _ _ _ y h.placed hy hyu
  rw [hsx] at hs1
  rw [hsy] at hs2
  cases hs1
  cases hs2
  rw [hw1] at hw2
  exact Option.some.inj hw2

/-! ## Lemmas on `FixedSet` -/

theorem occupancy_cons (hash : LinearHashFunction) (v : Int) (vs : List Int) (i : Nat) :
    occupancy hash (v :: vs) i = occupancy hash vs i + (if hash.sendsTo i v then 1 else 0) := by
  unfold occupancy
  rw [List.countP_cons]

theorem wrapInt_of_range (i : Int) (h1 : -2147483648 ≤ i) (h2 : i ≤ 2147483647) :
    wrapInt i = i := by
  unfold wrapInt
  omega

theorem wrapInt_range (i : Int) : -2147483648 ≤ wrapInt i ∧ wrapInt i ≤ 2147483647 := by
  unfold wrapInt
  omega

theorem wrapInt_add_wrapInt (a b : Int) : wrapInt (a + wrapInt b) = wrapInt (a + b) := by
  unfold wrapInt
  omega

theorem wrapInt_wrapInt_add (a b : Int) : wrapInt (wrapInt a + b) = wrapInt (a + b) := by
  unfold wrapInt
  omega

theorem countSizes_cons_ok {hash : LinearHashFunction} {v : Int} {rest sizes sizes1 : List Int}
    (H : FixedSet.countSizes hash (v :: rest) sizes = .ok sizes1) :
    ∃ j c, hash.hashKey v = .ok j ∧ sizes[j]? = some c ∧
      FixedSet.countSizes hash rest (sizes.set j (wrapInt (c + 1))) = .ok sizes1 := by
  unfold FixedSet.countSizes at H
  split at H
  · cases H
  · rename_i j hj
    split at H
    · cases H
    · rename_i c hc
      exact ⟨j, c, hj, hc, H⟩

theorem countSizes_length {hash : LinearHashFunction} :
    ∀ (vs sizes sizes1 : List Int),
      FixedSet.countSizes hash vs sizes = .ok sizes1 → sizes1.length = sizes.length
  | [], sizes, sizes1, H => by
    simp only [FixedSet.countSizes, Except.ok.injEq] at H
    rw [H]
  | v :: rest, sizes, sizes1, H => by
    obtain ⟨j, c0, -, -, hrec⟩ := countSizes_cons_ok H
    rw [countSizes_length rest _ sizes1 hrec, List.length_set]

/-- While no counter can pass `INT_MAX`, the counters are the occupancies. -/
theorem countSizes_spec {hash : LinearHashFunction} :
    ∀ (vs sizes sizes1 : List Int),
      FixedSet.countSizes hash vs sizes = .ok sizes1 →
      (∀ (i : Nat) (c : Int), sizes[i]? = some c → 0 ≤ c ∧ c + vs.length ≤ 2147483647) →
      ∀ (i : Nat) (c : Int), sizes[i]? = some c →
        sizes1[i]? = some (c + (occupancy hash vs i : Int))
  | [], sizes, sizes1, H, _ => by
    simp only [FixedSet.countSizes, Except.ok.injEq] at H
    subst H
    intro i c hc
    simp [occupancy, hc]
  | v :: rest, sizes, sizes1, H, hb => by
    obtain ⟨j, c0, hj, hc0, hrec⟩ := countSizes_cons_ok H
    have hb0 := hb j c0 hc0
    simp only [List.length_cons, Nat.cast_add, Nat.cast_one] at hb0
    rw [wrapInt_of_range (c0 + 1) (by omega) (by omega)] at hrec
    have hb1 : ∀ (i : Nat) (c : Int), (sizes.set j (c0 + 1))[i]? = some c →
        0 ≤ c ∧ c + rest.length ≤ 2147483647 := by
      intro i c hc
      by_cases hji : j = i
      · subst hji
        rw [List.getElem?_set_self', hc0] at hc
        have : c0 + 1 = c := by simpa using hc
        omega
      · rw [List.getElem?_set_ne hji] at hc
        have := hb i c hc
        simp only [List.length_cons, Nat.cast_add, Nat.cast_one] at this
        omega
    have hget := countSizes_spec rest _ sizes1 hrec hb1
    intro i c hc
    rw [occupancy_cons]
    by_cases hji : j = i
    · subst hji
      have hcc : c0 = c := by rw [hc0] at hc; exact Option.some.inj hc
      subst hcc
      have hs : hash.sendsTo j v = true := sendsTo_iff.mpr hj
      rw [hget j (c0 + 1) (by rw [List.getElem?_set_self', hc0]; rfl), hs]
      simp only [if_true, Nat.cast_add, Nat.cast_one]
      congr 1
      ring
    · have hs : hash.sendsTo i v = false := by
        rw [Bool.eq_false_iff]
        intro h
        rw [sendsTo_iff, hj] at h
        exact hji (Except.ok.inj h)
      rw [hget i c (by rw [List.getElem?_set_ne hji]; exact hc), hs]
      simp

theorem sum_set_succ : ∀ (l : List Int) (i : Nat) (c : Int),
    l[i]? = some c → (l.set i (c + 1)).sum = l.sum + 1
  | [], _, _, h => by simp at h
  | a :: l, 0, c, h => by
    simp only [List.getElem?_cons_zero, Option.some.injEq] at h
    subst h
    simp only [List.set_cons_zero, List.sum_cons]
    ring
  | a :: l, i + 1, c, h => by
    simp only [List.getElem?_cons_succ] at h
    simp only [List.set_cons_succ, List.sum_cons, sum_set_succ l i c h]
    ring

theorem countSizes_sum {hash : LinearHashFunction} :
    ∀ (vs sizes sizes1 : List Int),
      FixedSet.countSizes hash vs sizes = .ok sizes1 →
      (∀ (i : Nat) (c : Int), sizes[i]? = some c → 0 ≤ c ∧ c + vs.length ≤ 2147483647) →
      sizes1.sum = sizes.sum + (vs.length : Int)
  | [], sizes, sizes1, H, _ => by
    simp only [FixedSet.countSizes, Except.ok.injEq] at H
    subst H
    simp
  | v :: rest, sizes, sizes1, H, hb => by
    obtain ⟨j, c0, -, hc0, hrec⟩ := countSizes_cons_ok H
    have hb0 := hb j c0 hc0
    simp only [List.length_cons, Nat.cast_add, Nat.cast_one] at hb0
    rw [wrapInt_of_range (c0 + 1) (by omega) (by omega)] at hrec
    have hb1 : ∀ (i : Nat) (c : Int), (sizes.set j (c0 + 1))[i]? = some c →
        0 ≤ c ∧ c + rest.length ≤ 2147483647 := by
      intro i c hc
      by_cases hji : j = i
      · subst hji
        rw [List.getElem?_set_self', hc0] at hc
        have : c0 + 1 = c := by simpa using hc
        omega
      · rw [List.getElem?_set_ne hji] at hc
        have := hb i c hc
        simp only [List.length_cons, Nat.cast_add, Nat.cast_one] at this
        omega
    rw [countSizes_sum rest _ sizes1 hrec hb1, sum_set_succ sizes j c0 hc0]
    simp only [List.length_cons, Nat.cast_add, Nat.cast_one]
    ring

theorem countSizes_inRange {hash : LinearHashFunction} :
    ∀ (vs sizes sizes1 : List Int),
      FixedSet.countSizes hash vs sizes = .ok sizes1 →
      ∀ v ∈ vs, ∃ j, hash.hashKey v = .ok j ∧ j < sizes.length
  | [], _, _, _, v, hv => by cases hv
  | u :: rest, sizes, sizes1, H, v, hv => by
    obtain ⟨j, c0, hj, hc0, hrec⟩ := countSizes_cons_ok H
    rcases List.mem_cons.mp hv with rfl | hv
    · rcases List.getElem?_eq_some.mp hc0 with ⟨hlt, -⟩
      exact ⟨j, hj, hlt⟩
    · have := countSizes_inRange rest _ sizes1 hrec v hv
      simpa using this

/-- The wrapped total is the sum of the squares, wrapped once. -/
theorem sumSquares_eq :
    ∀ (cs : List Int) (t : Int),
      FixedSet.sumSquares cs (wrapInt t) = wrapInt (t + (cs.map (fun c => c * c)).sum)
  | [], t => by simp [FixedSet.sumSquares]
  | c :: rest, t => by
    unfold FixedSet.sumSquares
    rw [wrapInt_add_wrapInt, wrapInt_wrapInt_add, sumSquares_eq rest (t + c * c)]
    simp only [List.map_cons, List.sum_cons]
    congr 1
    ring

theorem sum_squares_le_square_sum :
    ∀ (cs : List Int), (∀ c ∈ cs, 0 ≤ c) →
      0 ≤ cs.sum ∧ (cs.map (fun c => c * c)).sum ≤ cs.sum * cs.sum
  | [], _ => by simp
  | c :: rest, h => by
    have hc : 0 ≤ c := h c (List.mem_cons_self _ _)
    obtain ⟨h0, h1⟩ := sum_squares_le_square_sum rest
      (fun x hx => h x (List.mem_cons_of_mem _ hx))
    simp only [List.map_cons, List.sum_cons]
    refine ⟨by omega, ?_⟩
    nlinarith [mul_nonneg hc h0]

theorem term_le_sum_range (f : Nat → Nat) :
    ∀ (n i : Nat), i < n → f i ≤ ((List.range n).map f).sum
  | 0, _, h => by omega
  | n + 1, i, h => by
    rw [List.range_succ, List.map_append, List.sum_append]
    simp only [List.map_cons, List.map_nil, List.sum_cons, List.sum_nil, Nat.add_zero]
    by_cases hi : i = n
    · subst hi
      omega
    · have := term_le_sum_range f n i (by omega)
      omega

theorem toSizeT_natCast (n : Nat) (h : n < SIZE_MOD) : toSizeT (n : Int) = n := by
  unfold toSizeT
  rw [Int.emod_eq_of_lt (by omega) (by exact_mod_cast h)]
  simp

theorem toInt_of_lt (n : Nat) (h : n < 2147483648) : toInt n = n := by
  unfold toInt
  rw [Nat.mod_eq_of_lt (by omega)]
  push_cast
  ring

/-- The counters after the first loop of `CheckPrimaryHash`, for at most
`INT_MAX` keys. -/
theorem countSizes_replicate {hash : LinearHashFunction} {keys sizes : List Int}
    (hn : keys.length ≤ 2147483647)
    (H : FixedSet.countSizes hash keys (List.replicate keys.length 0) = .ok sizes) :
    sizes = (List.range keys.length).map (fun i => (occupancy hash keys i : Int)) ∧
      sizes.sum = (keys.length : Int) := by
  have hb : ∀ (i : Nat) (c : Int), (List.replicate keys.length (0 : Int))[i]? = some c →
      0 ≤ c ∧ c + keys.length ≤ 2147483647 := by
    intro i c hc
    rw [List.getElem?_replicate] at hc
    split at hc
    · have : (0 : Int) = c := by simpa using hc
      omega
    · cases hc
  have hlen := countSizes_length _ _ _ H
  have hget := countSizes_spec _ _ _ H hb
  have hsum := countSizes_sum _ _ _ H hb
  simp only [List.length_replicate] at hlen
  refine ⟨?_, by simpa using hsum⟩
  apply List.ext_getElem?
  intro i
  by_cases hi : i < keys.length
  · rw [hget i 0 (List.getElem?_replicate_of_lt hi)]
    simp [List.getElem?_range hi]
  · rw [List.getElem?_eq_none (by omega), List.getElem?_eq_none (by simp; omega)]

theorem sum_squares_cast (hash : LinearHashFunction) (keys : List Int) (n : Nat) :
    (((List.range n).map (fun i => (occupancy hash keys i : Int))).map
        (fun c => c * c)).sum
      = ((sumSquaredOccupancies hash keys n : Nat) : Int) := by
  rw [sumSquaredOccupancies, Nat.cast_list_sum, List.map_map, List.map_map]
  congr 1

/-- What `CheckPrimaryHash` has established when it answers `true`, for fewer
than `65536` keys. -/
structure PrimaryAccepted (hash : LinearHashFunction) (keys : List Int) : Prop where
  length_le : keys.length ≤ 2147483647
  inRange : ∀ v ∈ keys, ∃ j, hash.hashKey v = .ok j ∧ j < keys.length
  square_le : ∀ i, i < keys.length →
    occupancy hash keys i * occupancy hash keys i ≤ 2147483647
  bound : sumSquaredOccupancies hash keys keys.length < 4 * keys.length

theorem accepted_total_lt (S n : Nat) (hn : n < 65536) (hle : (S : Int) ≤ 65535 * 65535)
    (hcmp : toSizeT (wrapInt (S : Int)) < (4 * n) % SIZE_MOD) : S < 4 * n := by
  have hmod : (4 * n) % SIZE_MOD ≤ 4 * n := Nat.mod_le _ _
  unfold toSizeT wrapInt SIZE_MOD at hcmp
  unfold SIZE_MOD at hmod
  omega

/-- With fewer than `65536` keys the sum of the squared counters is below
`2^32`, so a wrapped total that passes the test is the sum itself. -/
theorem CheckPrimaryHash_true {keys : List Int} {hash : LinearHashFunction}
    (hn : keys.length < 65536)
    (H : FixedSet.CheckPrimaryHash keys hash = .ok true) : PrimaryAccepted hash keys := by
  unfold FixedSet.CheckPrimaryHash at H
  split at H
  · cases H
  · rename_i sizes hsizes
    have hrange := countSizes_inRange _ _ _ hsizes
    simp only [List.length_replicate] at hrange
    obtain ⟨hsizes_eq, hsum⟩ := countSizes_replicate (by omega) hsizes
    have htotal : FixedSet.sumSquares sizes 0
        = wrapInt ((sumSquaredOccupancies hash keys keys.length : Nat) : Int) := by
      have h0 : (0 : Int) = wrapInt 0 := by decide
      have h1 := sumSquares_eq sizes 0
      rw [← h0] at h1
      rw [h1, hsizes_eq, sum_squares_cast]
      simp
    have hnonneg : ∀ c ∈ sizes, (0 : Int) ≤ c := by
      intro c hc
      rw [hsizes_eq] at hc
      obtain ⟨i, -, rfl⟩ := List.mem_map.mp hc
      exact Int.natCast_nonneg _
    have hle := (sum_squares_le_square_sum sizes hnonneg).2
    rw [hsum] at hle
    have hS : (sizes.map (fun c => c * c)).sum
        = ((sumSquaredOccupancies hash keys keys.length : Nat) : Int) := by
      rw [hsizes_eq, sum_squares_cast]
    rw [hS] at hle
    have hnn : (keys.length : Int) * keys.length ≤ 65535 * 65535 := by
      have h1 : (keys.length : Int) ≤ 65535 := by omega
      have h2 : (0 : Int) ≤ keys.length := Int.natCast_nonneg _
      nlinarith
    have hcmp : toSizeT (FixedSet.sumSquares sizes 0)
        < (toSizeT MEMORY_SIZE_FACTOR_ * keys.length) % SIZE_MOD := by
      simpa using H
    have h4 : toSizeT MEMORY_SIZE_FACTOR_ = 4 := by decide
    rw [h4, htotal] at hcmp
    have hbound : sumSquaredOccupancies hash keys keys.length < 4 * keys.length :=
      accepted_total_lt _ _ hn (le_trans hle hnn) hcmp
    refine ⟨by omega, hrange, fun i hi => ?_, hbound⟩
    have hterm := term_le_sum_range
      (fun i => occupancy hash keys i * occupancy hash keys i) keys.length i hi
    have : occupancy hash keys i * occupancy hash keys i
        ≤ sumSquaredOccupancies hash keys keys.length := hterm
    omega

theorem choosePrimary_spec (keys : List Int) :
    ∀ (draws : List Draw) (hash primary : LinearHashFunction) (rest : List Draw),
      FixedSet.choosePrimary keys hash draws = .ok (primary, rest) →
      FixedSet.CheckPrimaryHash keys primary = .ok true ∧
        primary.image_size_ = hash.image_size_
  | [], _, _, _, H => by simp [FixedSet.choosePrimary] at H
  | d :: draws, hash, primary, rest, H => by
    unfold FixedSet.choosePrimary at H
    split at H
    · cases H
    · rename_i accepted hacc
      split at H
      · rename_i ha
        simp only [Except.ok.injEq, Prod.mk.injEq] at H
        obtain ⟨rfl, -⟩ := H
        subst ha
        exact ⟨hacc, rfl⟩
      · obtain ⟨h1, h2⟩ := choosePrimary_spec keys draws _ primary rest H
        exact ⟨h1, h2⟩

theorem fillBuckets_spec {hash : LinearHashFunction} :
    ∀ (vs : List Int) (t t1 : List (List Int)),
      FixedSet.fillBuckets hash vs t = .ok t1 →
      t1.length = t.length ∧
        ∀ i b, t[i]? = some b → t1[i]? = some (b ++ vs.filter (hash.sendsTo i))
  | [], t, t1, H => by
    simp only [FixedSet.fillBuckets, Except.ok.injEq] at H
    subst H
    exact ⟨rfl, fun i b hb => by simp [hb]⟩
  | v :: rest, t, t1, H => by
    unfold FixedSet.fillBuckets at H
    split at H
    · cases H
    · rename_i j hj
      split at H
      · cases H
      · rename_i bucket hbucket
        obtain ⟨hlen, hget⟩ := fillBuckets_spec rest _ t1 H
        refine ⟨by rw [hlen, List.length_set], fun i b hb => ?_⟩
        by_cases hji : j = i
        · subst hji
          have hbb : bucket = b := by rw [hbucket] at hb; exact Option.some.inj hb
          subst hbb
          have hs : hash.sendsTo j v = true := sendsTo_iff.mpr hj
          rw [hget j (bucket ++ [v]) (by rw [List.getElem?_set_self', hbucket]; rfl)]
          rw [List.filter_cons_of_pos hs]
          simp
        · have hs : ¬ hash.sendsTo i v = true := by
            intro h
            rw [sendsTo_iff, hj] at h
            exact hji (Except.ok.inj h)
          rw [hget i b (by rw [List.getElem?_set_ne hji]; exact hb)]
          rw [List.filter_cons_of_neg hs]

theorem CreatePrimaryHashTable_spec {hash : LinearHashFunction} {keys : List Int}
    {subsets : List (List Int)}
    (H : FixedSet.CreatePrimaryHashTable keys hash = .ok subsets) :
    subsets.length = keys.length ∧
      ∀ i, i < keys.length → subsets[i]? = some (keys.filter (hash.sendsTo i)) := by
  obtain ⟨hlen, hget⟩ := fillBuckets_spec _ _ _ H
  refine ⟨by simpa using hlen, fun i hi => ?_⟩
  have := hget i [] (List.getElem?_replicate_of_lt hi)
  simpa using this

theorem resizeTables_length (tables : List HashTable) (n : Nat) :
    (resizeTables tables n).length = n := by
  unfold resizeTables
  simp only [List.length_append, List.length_take, List.length_replicate]
  omega

theorem initTables_spec :
    ∀ (index : Int) (ts : List HashTable) (vss : List (List Int)) (draws : List Draw)
      (ts1 : List HashTable) (rest : List Draw),
      FixedSet.initTables index ts vss draws = .ok (ts1, rest) →
      ts.length = vss.length →
      ts1.length = vss.length ∧
        ∀ (i : Nat) (t1 : HashTable) (vs : List Int),
          ts1[i]? = some t1 → vss[i]? = some vs →
          ∃ t0 d r, HashTable.Initialize t0 vs
            (toInt (vs.length * vs.length % SIZE_MOD)) d = .ok (t1, r)
  | index, [], [], draws, ts1, rest, H, _ => by
    unfold FixedSet.initTables at H
    split at H
    · cases H
    · simp only [Except.ok.injEq, Prod.mk.injEq] at H
      obtain ⟨rfl, -⟩ := H
      exact ⟨rfl, fun i t1 vs h => by simp at h⟩
  | _, [], _ :: _, _, _, _, _, hl => by simp at hl
  | _, _ :: _, [], _, _, _, _, hl => by simp at hl
  | index, t :: ts, vs0 :: vss, draws, ts1, rest, H, hl => by
    unfold FixedSet.initTables at H
    split at H
    · cases H
    · split at H
      · cases H
      · rename_i table1 draws1 h1
        split at H
        · cases H
        · rename_i tables1 draws2 h2
          simp only [Except.ok.injEq, Prod.mk.injEq] at H
          obtain ⟨rfl, -⟩ := H
          obtain ⟨hlen, hget⟩ := initTables_spec _ ts vss draws1 tables1 draws2 h2
            (by simpa using hl)
          refine ⟨by simp [hlen], fun i t1 vs hi hv => ?_⟩
          cases i with
          | zero =>
            simp only [List.getElem?_cons_zero, Option.some.injEq] at hi hv
            subst hi hv
            exact ⟨t, draws, draws1, h1⟩
          | succ i =>
            simp only [List.getElem?_cons_succ] at hi hv
            exact hget i t1 vs hi hv

/-- The loop over the tables returns only if its `int` index never wraps. -/
theorem initTables_index :
    ∀ (vss : List (List Int)) (index : Int) (ts : List HashTable) (draws : List Draw)
      (ts1 : List HashTable) (rest : List Draw),
      FixedSet.initTables index ts vss draws = .ok (ts1, rest) →
      index ≤ 2147483647 →
      0 ≤ index ∧ index + vss.length ≤ 2147483647
  | [], index, ts, draws, ts1, rest, H, hi => by
    by_cases h0 : index < 0
    · cases ts <;> simp [FixedSet.initTables, h0] at H
    · simp only [List.length_nil, Nat.cast_zero, add_zero]
      omega
  | vs :: vss, index, [], draws, ts1, rest, H, _ => by
    simp [FixedSet.initTables] at H
  | vs :: vss, index, t :: ts, draws, ts1, rest, H, hi => by
    unfold FixedSet.initTables at H
    split at H
    · cases H
    · rename_i h0
      split at H
      · cases H
      · rename_i table1 draws1 h1
        split at H
        · cases H
        · rename_i tables1 draws2 h2
          have hr := wrapInt_range (index + 1)
          obtain ⟨hw0, hw1⟩ := initTables_index vss _ ts draws1 tables1 draws2 h2 hr.2
          have hw : wrapInt (index + 1) = index + 1 := by
            unfold wrapInt at hw0 ⊢
            omega
          rw [hw] at hw1
          simp only [List.length_cons, Nat.cast_add, Nat.cast_one]
          omega

/-- What `FixedSet::Initialize` has established whenever it returns from a
non-empty input. -/
structure FixedSet.Shaped (s : FixedSet) (keys : List Int) : Prop where
  nonempty : keys ≠ []
  length_le : keys.length ≤ 2147483647
  check : FixedSet.CheckPrimaryHash keys s.primary_hash_ = .ok true
  image : s.primary_hash_.image_size_ = keys.length
  length : s.secondary_hash_tables_.length = keys.length
  tables : ∀ (i : Nat) (t : HashTable), s.secondary_hash_tables_[i]? = some t →
    ∃ t0 d r, HashTable.Initialize t0 (keys.filter (s.primary_hash_.sendsTo i))
      (toInt ((keys.filter (s.primary_hash_.sendsTo i)).length
        * (keys.filter (s.primary_hash_.sendsTo i)).length % SIZE_MOD)) d = .ok (t, r)

theorem Initialize_shaped {s0 s : FixedSet} {keys : List Int} {draws rest : List Draw}
    (H : s0.Initialize keys draws = .ok (s, rest)) (hne : keys ≠ []) : s.Shaped keys := by
  unfold FixedSet.Initialize at H
  rw [if_neg (by simpa using hne)] at H
  split at H
  · cases H
  · rename_i primary draws1 hprim
    split at H
    · cases H
    · rename_i subsets hsub
      split at H
      · cases H
      · rename_i tables draws2 htab
        simp only [Except.ok.injEq, Prod.mk.injEq] at H
        obtain ⟨rfl, -⟩ := H
        obtain ⟨hcheck, himg⟩ := choosePrimary_spec _ _ _ _ _ hprim
        obtain ⟨hslen, hsget⟩ := CreatePrimaryHashTable_spec hsub
        obtain ⟨htlen, htget⟩ := initTables_spec _ _ _ _ _ _ htab
          (resizeTables_length _ _)
        have hidx := (initTables_index _ _ _ _ _ _ htab (by decide)).2
        rw [hslen] at hidx
        have hlen : keys.length ≤ 2147483647 := by omega
        have himg1 : primary.image_size_ = keys.length := by
          rw [himg]
          simp only [LinearHashFunction.new]
          rw [toInt_of_lt _ (by omega), toSizeT_natCast _ (by unfold SIZE_MOD; omega)]
        refine ⟨hne, hlen, hcheck, himg1, by rw [htlen, hslen], fun i t hi => ?_⟩
        dsimp only at hi ⊢
        have hilt : i < keys.length := by
          rcases List.getElem?_eq_some.mp hi with ⟨hlt, -⟩
          have : tables.length = keys.length := by rw [htlen, hslen]
          omega
        exact htget i t _ hi (hsget i hilt)

theorem FixedSet.Shaped.dispatch {s : FixedSet} {keys : List Int} (h : s.Shaped keys)
    (x : Int) :
    ∃ (i : Nat) (t : HashTable), s.primary_hash_.hashKey x = .ok i ∧ i < keys.length ∧
      s.secondary_hash_tables_[i]? = some t ∧ s.Contains x = t.Contains x := by
  have hpos : 0 < keys.length := List.length_pos.mpr h.nonempty
  have hz : s.primary_hash_.image_size_ ≠ 0 := by rw [h.image]; omega
  obtain ⟨i, hi, hlt⟩ := hashKey_total hz x
  rw [h.image] at hlt
  have hlen := h.length_le
  have hti : i < s.secondary_hash_tables_.length := by rw [h.length]; exact hlt
  refine ⟨i, s.secondary_hash_tables_[i], hi, hlt, List.getElem?_eq_getElem hti, ?_⟩
  unfold FixedSet.Contains
  rw [if_neg (by rw [h.length]; omega)]
  simp only [hi]
  rw [toInt_of_lt _ (by omega), toSizeT_natCast _ (by unfold SIZE_MOD; omega),
    List.getElem?_eq_getElem hti]

/-- Each inner table of a returned set has no slot or holds an accepted trial
on its collision list. -/
theorem FixedSet.Shaped.table_cases {s : FixedSet} {keys : List Int} (h : s.Shaped keys)
    {i : Nat} {t : HashTable} (ht : s.secondary_hash_tables_[i]? = some t) :
    t.table_ = [] ∨ t.Accepted (keys.filter (s.primary_hash_.sendsTo i)) := by
  obtain ⟨t0, d, r, hinit⟩ := h.tables i t ht
  rcases Initialize_cases hinit with h1 | h1
  · exact Or.inl h1.1
  · exact Or.inr h1.2.2

theorem FixedSet.Shaped.answers_absent {s : FixedSet} {keys : List Int} (h : s.Shaped keys)
    {x : Int} (hx : x ∉ keys) (hne : x ≠ UNDEFINED) : s.Contains x = .ok false := by
  obtain ⟨i, t, hi, -, ht, hc⟩ := h.dispatch x
  rw [hc]
  rcases h.table_cases ht with h1 | h1
  · exact Contains_of_nil h1 x
  · exact h1.contains_not_mem (fun hm => hx (List.mem_filter.mp hm).1) hne

/-- What `FixedSet::Initialize` has established when it returns from a
non-empty input of fewer than `65536` keys. -/
structure FixedSet.Built (s : FixedSet) (keys : List Int) : Prop where
  nonempty : keys ≠ []
  length_le : keys.length ≤ 2147483647
  check : FixedSet.CheckPrimaryHash keys s.primary_hash_ = .ok true
  accepted_primary : PrimaryAccepted s.primary_hash_ keys
  image : s.primary_hash_.image_size_ = keys.length
  length : s.secondary_hash_tables_.length = keys.length
  empty : ∀ (i : Nat) (t : HashTable), s.secondary_hash_tables_[i]? = some t →
    keys.filter (s.primary_hash_.sendsTo i) = [] → t.table_ = []
  accepted : ∀ (i : Nat) (t : HashTable), s.secondary_hash_tables_[i]? = some t →
    keys.filter (s.primary_hash_.sendsTo i) ≠ [] →
    t.Accepted (keys.filter (s.primary_hash_.sendsTo i))

/-- Each inner table of a set returned for fewer than `65536` keys is the
result of one call of `HashTable::Initialize` on its collision list with the
squared list length, which fits an `int`. -/
theorem Initialize_tables {s0 s : FixedSet} {keys : List Int} {draws rest : List Draw}
    (H : s0.Initialize keys draws = .ok (s, rest)) (hne : keys ≠ [])
    (hn : keys.length < 65536) :
    ∀ (i : Nat) (t : HashTable), s.secondary_hash_tables_[i]? = some t →
      occupancy s.primary_hash_ keys i * occupancy s.primary_hash_ keys i ≤ 2147483647 ∧
      ∃ t0 d r, HashTable.Initialize t0 (keys.filter (s.primary_hash_.sendsTo i))
        ((occupancy s.primary_hash_ keys i * occupancy s.primary_hash_ keys i : Nat) : Int) d
          = .ok (t, r) := by
  have hsh := Initialize_shaped H hne
  have hacc := CheckPrimaryHash_true hn hsh.check
  intro i t hi
  have hilt : i < keys.length := by
    rcases List.getElem?_eq_some.mp hi with ⟨hlt, -⟩
    rw [hsh.length] at hlt
    exact hlt
  have hsq := hacc.square_le i hilt
  refine ⟨hsq, ?_⟩
  obtain ⟨t0, d, r, h⟩ := hsh.tables i t hi
  have hocc : (keys.filter (s.primary_hash_.sendsTo i)).length
      = occupancy s.primary_hash_ keys i := by
    simp only [occupancy, List.countP_eq_length_filter]
  rw [hocc, Nat.mod_eq_of_lt (by unfold SIZE_MOD; omega), toInt_of_lt _ (by omega)] at h
  exact ⟨t0, d, r, h⟩

theorem Initialize_built {s0 s : FixedSet} {keys : List Int} {draws rest : List Draw}
    (H : s0.Initialize keys draws = .ok (s, rest)) (hne : keys ≠ [])
    (hn : keys.length < 65536) : s.Built keys := by
  have hsh := Initialize_shaped H hne
  have hacc := CheckPrimaryHash_true hn hsh.check
  have key := Initialize_tables H hne hn
  refine ⟨hne, hsh.length_le, hsh.check, hacc, hsh.image, hsh.length, ?_, ?_⟩
  · intro i t hi hnil
    obtain ⟨-, t0, d, r, h⟩ := key i t hi
    rcases Initialize_cases h with h1 | h1
    · exact h1.1
    · exact absurd hnil h1.1
  · intro i t hi hnn
    obtain ⟨-, t0, d, r, h⟩ := key i t hi
    rcases Initialize_cases h with h1 | h1
    · exfalso
      rcases h1.2 with h2 | h2
      · exact hnn h2
      · have hpos : 0 < occupancy s.primary_hash_ keys i := by
          simp only [occupancy, List.countP_eq_length_filter]
          exact List.length_pos.mpr hnn
        have : 0 < occupancy s.primary_hash_ keys i * occupancy s.primary_hash_ keys i :=
          Nat.mul_pos hpos hpos
        have h3 : ((occupancy s.primary_hash_ keys i * occupancy s.primary_hash_ keys i
            : Nat) : Int) ≠ 0 := by
          exact_mod_cast this.ne'
        exact h3 h2
    · exact h1.2.2

theorem FixedSet.Built.route {s : FixedSet} {keys : List Int} (h : s.Built keys)
    (x : Int) :
    ∃ (i : Nat) (t : HashTable), s.primary_hash_.hashKey x = .ok i ∧ i < keys.length ∧
      s.secondary_hash_tables_[i]? = some t ∧ s.Contains x = t.Contains x := by
  have hpos : 0 < keys.length := List.length_pos.mpr h.nonempty
  have hz : s.primary_hash_.image_size_ ≠ 0 := by rw [h.image]; omega
  obtain ⟨i, hi, hlt⟩ := hashKey_total hz x
  rw [h.image] at hlt
  have hlen := h.length_le
  have hti : i < s.secondary_hash_tables_.length := by rw [h.length]; exact hlt
  refine ⟨i, s.secondary_hash_tables_[i], hi, hlt, List.getElem?_eq_getElem hti, ?_⟩
  unfold FixedSet.Contains
  rw [if_neg (by rw [h.length]; omega)]
  simp only [hi]
  rw [toInt_of_lt _ (by omega), toSizeT_natCast _ (by unfold SIZE_MOD; omega),
    List.getElem?_eq_getElem hti]

theorem FixedSet.Built.answers_key {s : FixedSet} {keys : List Int} (h : s.Built keys)
    {x : Int} (hx : x ∈ keys) (hne : x ≠ UNDEFINED) : s.Contains x = .ok true := by
  obtain ⟨i, t, hi, -, ht, hc⟩ := h.route x
  have hmem : x ∈ keys.filter (s.primary_hash_.sendsTo i) :=
    List.mem_filter.mpr ⟨hx, sendsTo_iff.mpr hi⟩
  rw [hc]
  exact (h.accepted i t ht (List.ne_nil_of_mem hmem)).contains_mem hmem hne

theorem fillBuckets_total {hash : LinearHashFunction} (hz : hash.image_size_ ≠ 0) :
    ∀ (vs : List Int) (t : List (List Int)), hash.image_size_ ≤ t.length →
      ∃ t1, FixedSet.fillBuckets hash vs t = .ok t1
  | [], t, _ => ⟨t, rfl⟩
  | v :: rest, t, hle => by
    obtain ⟨i, hi, hlt⟩ := hashKey_total hz v
    have hit : i < t.length := by omega
    obtain ⟨t1, ht1⟩ := fillBuckets_total hz rest (t.set i (t[i] ++ [v]))
      (by rw [List.length_set]; exact hle)
    refine ⟨t1, ?_⟩
    unfold FixedSet.fillBuckets
    simp only [hi, List.getElem?_eq_getElem hit]
    exact ht1

/-! ## A run in which `total_size` wraps -/

theorem set_same : ∀ (l : List Int) (j : Nat) (c : Int), l[j]? = some c → l.set j c = l
  | [], _, _, h => by simp at h
  | a :: l, 0, c, h => by
    simp only [List.getElem?_cons_zero, Option.some.injEq] at h
    subst h
    rfl
  | a :: l, j + 1, c, h => by
    simp only [List.getElem?_cons_succ] at h
    simp only [List.set_cons_succ, set_same l j c h]

/-- The counters when every key has hash value `j`. -/
theorem countSizes_same_bucket {hash : LinearHashFunction} {j : Nat} :
    ∀ (vs sizes : List Int) (c : Int),
      (∀ v ∈ vs, hash.hashKey v = .ok j) → sizes[j]? = some c → 0 ≤ c →
      c + vs.length ≤ 2147483647 →
      FixedSet.countSizes hash vs sizes = .ok (sizes.set j (c + vs.length))
  | [], sizes, c, _, hc, _, _ => by
    simp only [FixedSet.countSizes, List.length_nil, Nat.cast_zero, add_zero]
    rw [set_same sizes j c hc]
  | v :: rest, sizes, c, hall, hc, h0, hmax => by
    have hv := hall v (List.mem_cons_self _ _)
    simp only [List.length_cons, Nat.cast_add, Nat.cast_one] at hmax
    have hjlt : j < sizes.length := by
      rcases List.getElem?_eq_some.mp hc with ⟨hlt, -⟩
      exact hlt
    unfold FixedSet.countSizes
    simp only [hv, hc]
    rw [wrapInt_of_range (c + 1) (by omega) (by omega),
      countSizes_same_bucket rest (sizes.set j (c + 1)) (c + 1)
        (fun u hu => hall u (List.mem_cons_of_mem _ hu))
        (by rw [List.getElem?_set_self hjlt]) (by omega) (by omega),
      List.set_set]
    simp only [List.length_cons, Nat.cast_add, Nat.cast_one]
    congr 2
    ring

theorem sum_squares_set : ∀ (l : List Int) (j : Nat) (m : Int), l[j]? = some 0 →
    ((l.set j m).map (fun c => c * c)).sum = (l.map (fun c => c * c)).sum + m * m
  | [], _, _, h => by simp at h
  | a :: l, 0, m, h => by
    simp only [List.getElem?_cons_zero, Option.some.injEq] at h
    subst h
    simp only [List.set_cons_zero, List.map_cons, List.sum_cons]
    ring
  | a :: l, j + 1, m, h => by
    simp only [List.getElem?_cons_succ] at h
    simp only [List.set_cons_succ, List.map_cons, List.sum_cons, sum_squares_set l j m h]
    ring

/-- `CheckPrimaryHash` accepts `65536` keys that all fall in one bucket:
`65536 * 65536` wraps to `0`. -/
theorem check_same_bucket {hash : LinearHashFunction} {keys : List Int} {j : Nat}
    (hlen : keys.length = 65536) (hj : j < 65536)
    (hall : ∀ k ∈ keys, hash.hashKey k = .ok j) :
    FixedSet.CheckPrimaryHash keys hash = .ok true := by
  have hc := countSizes_same_bucket keys (List.replicate keys.length 0) 0 hall
    (List.getElem?_replicate_of_lt (by omega)) (le_refl 0) (by rw [hlen]; decide)
  have hsq := sum_squares_set (List.replicate keys.length (0 : Int)) j (0 + keys.length)
    (List.getElem?_replicate_of_lt (by omega))
  have hzero : ((List.replicate keys.length (0 : Int)).map (fun c => c * c)).sum = 0 := by
    simp
  have h0 : (0 : Int) = wrapInt 0 := by decide
  have htotal := sumSquares_eq ((List.replicate keys.length (0 : Int)).set j (0 + keys.length)) 0
  rw [← h0, hsq, hzero, hlen] at htotal
  have hw : wrapInt (0 + (0 + (0 + ((65536 : Nat) : Int)) * (0 + ((65536 : Nat) : Int)))) = 0 := by
    decide
  rw [hw] at htotal
  unfold FixedSet.CheckPrimaryHash
  rw [hc]
  simp only [htotal, hlen]
  decide

theorem initTables_cleared :
    ∀ (vss : List (List Int)) (index : Int) (ts : List HashTable) (draws : List Draw),
      ts.length = vss.length → 0 ≤ index → index + vss.length ≤ 2147483647 →
      (∀ vs ∈ vss, vs.length = 0 ∨ toInt (vs.length * vs.length % SIZE_MOD) = 0) →
      FixedSet.initTables index ts vss draws
        = .ok (ts.map (fun t => ({ t with table_ := [] } : HashTable)), draws)
  | [], index, [], draws, _, h0, _, _ => by
    unfold FixedSet.initTables
    rw [if_neg (by omega)]
    rfl
  | [], _, _ :: _, _, hl, _, _, _ => by simp at hl
  | _ :: _, _, [], _, hl, _, _, _ => by simp at hl
  | vs :: vss, index, t :: ts, draws, hl, h0, hmax, hall => by
    simp only [List.length_cons, Nat.cast_add, Nat.cast_one] at hmax
    have hinit : t.Initialize vs (toInt (vs.length * vs.length % SIZE_MOD)) draws
        = .ok ({ t with table_ := [] }, draws) := by
      unfold HashTable.Initialize
      rw [if_pos (hall vs (List.mem_cons_self _ _))]
    have hrec := initTables_cleared vss (index + 1) ts draws (by simpa using hl) (by omega)
      (by omega) (fun u hu => hall u (List.mem_cons_of_mem _ hu))
    unfold FixedSet.initTables
    rw [if_neg (by omega), hinit]
    simp only [wrapInt_of_range (index + 1) (by omega) (by omega), hrec, List.map_cons]

theorem contains_of_all_cleared (s : FixedSet) (hz : s.primary_hash_.image_size_ ≠ 0)
    (hle : s.primary_hash_.image_size_ ≤ s.secondary_hash_tables_.length)
    (hmax : s.primary_hash_.image_size_ ≤ 2147483648)
    (hall : ∀ t ∈ s.secondary_hash_tables_, t.table_ = []) (x : Int) :
    s.Contains x = .ok false := by
  obtain ⟨i, hi, hlt⟩ := hashKey_total hz x
  have hti : i < s.secondary_hash_tables_.length := by omega
  unfold FixedSet.Contains
  rw [if_neg (by omega)]
  simp only [hi]
  rw [toInt_of_lt _ (by omega), toSizeT_natCast _ (by unfold SIZE_MOD; omega),
    List.getElem?_eq_getElem hti]
  exact Contains_of_nil (hall _ (List.getElem_mem hti)) x

/-- `FixedSet::Initialize` on `65536` keys that the drawn primary hash sends to
one bucket `j`: the hash is accepted at once, `table_size` is
`65536 * 65536` converted to `int`, that is `0`, and every inner table is left
without slots. -/
theorem overflow_run (s0 : FixedSet) (keys : List Int) (d : Draw) (draws : List Draw)
    (j : Nat) (hlen : keys.length = 65536)
    (hall : ∀ k ∈ keys, ((LinearHashFunction.new 65536).Randomize d).hashKey k = .ok j) :
    s0.Initialize keys (d :: draws)
      = .ok (⟨(LinearHashFunction.new 65536).Randomize d,
          (resizeTables s0.secondary_hash_tables_ 65536).map
            (fun t => ({ t with table_ := [] } : HashTable))⟩, draws) := by
  have hne : keys ≠ [] := by
    intro h
    rw [h] at hlen
    cases hlen
  obtain ⟨k0, rest0, hk0⟩ := List.exists_cons_of_ne_nil hne
  have hj : j < 65536 := by
    have := hashKey_lt (hall k0 (by rw [hk0]; exact List.mem_cons_self _ _))
    exact this
  have hnew : LinearHashFunction.new (toInt keys.length) = LinearHashFunction.new 65536 := by
    rw [hlen]
    rfl
  have hcheck := check_same_bucket hlen hj hall
  have hprim : FixedSet.choosePrimary keys (LinearHashFunction.new (toInt keys.length))
      (d :: draws) = .ok ((LinearHashFunction.new 65536).Randomize d, draws) := by
    rw [hnew, FixedSet.choosePrimary, hcheck]
    rfl
  have himg : ((LinearHashFunction.new 65536).Randomize d).image_size_ = 65536 := rfl
  obtain ⟨subsets, hsub⟩ := @fillBuckets_total ((LinearHashFunction.new 65536).Randomize d)
    (by rw [himg]; decide) keys (List.replicate keys.length [])
    (by rw [List.length_replicate, hlen, himg])
  have hsub1 : FixedSet.CreatePrimaryHashTable keys ((LinearHashFunction.new 65536).Randomize d)
      = .ok subsets := hsub
  obtain ⟨hslen, hsget⟩ := CreatePrimaryHashTable_spec hsub1
  have hclear : ∀ vs ∈ subsets,
      vs.length = 0 ∨ toInt (vs.length * vs.length % SIZE_MOD) = 0 := by
    intro vs hvs
    obtain ⟨i, hi, hget⟩ := List.mem_iff_getElem.mp hvs
    have hil : i < keys.length := by rw [← hslen]; exact hi
    have hsome := hsget i hil
    rw [List.getElem?_eq_getElem hi, hget] at hsome
    have hvs_eq : vs = keys.filter (((LinearHashFunction.new 65536).Randomize d).sendsTo i) :=
      Option.some.inj hsome
    by_cases hij : i = j
    · right
      have hfull : keys.filter (((LinearHashFunction.new 65536).Randomize d).sendsTo i) = keys := by
        rw [List.filter_eq_self]
        intro k hk
        rw [sendsTo_iff, hij]
        exact hall k hk
      rw [hvs_eq, hfull, hlen]
      decide
    · left
      have hnone : keys.filter (((LinearHashFunction.new 65536).Randomize d).sendsTo i) = [] := by
        rw [List.filter_eq_nil_iff]
        intro k hk hs
        rw [sendsTo_iff, hall k hk] at hs
        exact hij (Except.ok.inj hs).symm
      rw [hvs_eq, hnone]
      rfl
  have htab := initTables_cleared subsets 0
    (resizeTables s0.secondary_hash_tables_ subsets.length) draws
    (resizeTables_length _ _) (le_refl 0) (by rw [hslen, hlen]; decide) hclear
  have hlen0 : ¬ keys.length = 0 := by rw [hlen]; decide
  unfold FixedSet.Initialize
  rw [if_neg hlen0, hprim]
  simp only [hsub1, htab]
  rw [hslen, hlen]

theorem resizeTables_nil_cleared (n : Nat) :
    (resizeTables [] n).map (fun t => ({ t with table_ := [] } : HashTable))
      = List.replicate n HashTable.new := by
  simp [resizeTables, HashTable.new]

/-- The run of `build` on `65536` keys that the drawn primary hash sends to one
bucket: it returns after that one draw, with `65536` inner tables without
slots. -/
theorem overflow_run_one_bucket (keys : List Int) (d : Draw) (draws : List Draw) (j : Nat)
    (hlen : keys.length = 65536)
    (hall : ∀ k ∈ keys, ((LinearHashFunction.new 65536).Randomize d).hashKey k = .ok j) :
    build keys (d :: draws)
      = .ok (⟨(LinearHashFunction.new 65536).Randomize d,
          List.replicate 65536 HashTable.new⟩, draws) := by
  have h := overflow_run FixedSet.new keys d draws j hlen hall
  rw [show FixedSet.new.secondary_hash_tables_ = [] from rfl, resizeTables_nil_cleared] at h
  exact h

/-- The run of `build` on `65536` copies of one key `k`, whatever pair `d` the
first call of `Randomize` draws: the run returns after that one draw, with the
drawn primary hash and `65536` inner tables without slots. -/
theorem overflow_run_equal_keys (k : Int) (d : Draw) (draws : List Draw) :
    ∃ j : Nat, j < 65536 ∧
      ((LinearHashFunction.new 65536).Randomize d).hashKey k = .ok j ∧
      build (List.replicate 65536 k) (d :: draws)
        = .ok (⟨(LinearHashFunction.new 65536).Randomize d,
            List.replicate 65536 HashTable.new⟩, draws) := by
  have himg : ((LinearHashFunction.new 65536).Randomize d).image_size_ = 65536 := rfl
  obtain ⟨j, hj, hlt⟩ := @hashKey_total ((LinearHashFunction.new 65536).Randomize d)
    (by rw [himg]; decide) k
  rw [himg] at hlt
  refine ⟨j, hlt, hj, ?_⟩
  exact overflow_run_one_bucket (List.replicate 65536 k) d draws j
    (List.length_replicate _ _) (fun x hx => by rw [List.eq_of_mem_replicate hx]; exact hj)

theorem contains_replicate_new (hash : LinearHashFunction) (n : Nat)
    (hz : hash.image_size_ ≠ 0) (hle : hash.image_size_ ≤ n)
    (hmax : hash.image_size_ ≤ 2147483648) (x : Int) :
    FixedSet.Contains ⟨hash, List.replicate n HashTable.new⟩ x = .ok false := by
  apply contains_of_all_cleared
  · exact hz
  · show hash.image_size_ ≤ (List.replicate n HashTable.new).length
    rw [List.length_replicate]
    exact hle
  · exact hmax
  · intro t ht
    rw [List.eq_of_mem_replicate ht]
    rfl

/-- The set returned for `65536` keys in one bucket answers every query
false. -/
theorem overflow_run_answers (d : Draw) (x : Int) :
    FixedSet.Contains ⟨(LinearHashFunction.new 65536).Randomize d,
      List.replicate 65536 HashTable.new⟩ x = .ok false := by
  have himg : ((LinearHashFunction.new 65536).Randomize d).image_size_ = 65536 := rfl
  exact contains_replicate_new _ 65536 (by rw [himg]; decide) (by rw [himg])
    (by rw [himg]; decide) x

theorem occupancy_replicate (hash : LinearHashFunction) (n : Nat) (k : Int) (i j : Nat)
    (hj : hash.hashKey k = .ok j) :
    occupancy hash (List.replicate n k) i = if i = j then n else 0 := by
  unfold occupancy
  rw [List.countP_replicate]
  by_cases hij : i = j
  · subst hij
    rw [if_pos (sendsTo_iff.mpr hj), if_pos rfl]
  · rw [if_neg, if_neg hij]
    intro hs
    rw [sendsTo_iff, hj] at hs
    exact hij (Except.ok.inj hs).symm

theorem sum_range_single (f : Nat → Nat) :
    ∀ (n j : Nat), j < n → (∀ i, i ≠ j → f i = 0) → ((List.range n).map f).sum = f j
  | 0, _, h, _ => by omega
  | n + 1, j, h, h0 => by
    rw [List.range_succ, List.map_append, List.sum_append]
    simp only [List.map_cons, List.map_nil, List.sum_cons, List.sum_nil, Nat.add_zero]
    by_cases hj : j = n
    · subst hj
      have hz : ((List.range j).map f).sum = 0 := by
        apply List.sum_eq_zero
        intro x hx
        obtain ⟨i, hi, rfl⟩ := List.mem_map.mp hx
        exact h0 i (by have := List.mem_range.mp hi; omega)
      omega
    · rw [sum_range_single f n j (by omega) h0, h0 n (fun e => hj e.symm)]
      omega

theorem sumSquaredOccupancies_replicate (hash : LinearHashFunction) (n m : Nat) (k : Int)
    (j : Nat) (hj : hash.hashKey k = .ok j) (hlt : j < m) :
    sumSquaredOccupancies hash (List.replicate n k) m = n * n := by
  unfold sumSquaredOccupancies
  rw [sum_range_single _ m j hlt
    (fun i hi => by rw [occupancy_replicate hash n k i j hj, if_neg hi])]
  rw [occupancy_replicate hash n k j j hj, if_pos rfl]

/-! ## Membership (C1 - C5) -/

/-- C1, as stated, fails at the key `INT_MAX`, which is the empty-slot marker:
the set built from `[2147483647, 0]` with the draws `(1, 0)`, `(1, 0)` (both in
the range of `Randomize`) is returned, holds `0` in the slot where `2147483647`
was stored, and `Contains(2147483647)` is false. -/
theorem roundtrip_fails_for_sentinel_key :
    (∀ d ∈ [(⟨1, 0⟩ : Draw), ⟨1, 0⟩], d.inRange) ∧
    (2147483647 : Int) ∈ [(2147483647 : Int), 0] ∧
    build [2147483647, 0] [⟨1, 0⟩, ⟨1, 0⟩]
      = .ok (⟨⟨1, 0, 2⟩, [⟨⟨1, 0, 4⟩, [0, 2147483647, 2147483647, 2147483647]⟩,
                          ⟨⟨1, 0, 0⟩, []⟩]⟩, []) ∧
    FixedSet.Contains
        ⟨⟨1, 0, 2⟩, [⟨⟨1, 0, 4⟩, [0, 2147483647, 2147483647, 2147483647]⟩,
                     ⟨⟨1, 0, 0⟩, []⟩]⟩ 2147483647
      = .ok false := by
  refine ⟨by decide, by decide, rfl, rfl⟩

/-- C1 (amended): for every key sequence `K` of fewer than `65536` keys (so
that no sum of squared bucket sizes can exceed an `int`) and every key `k` of
`K` other than `INT_MAX`, whenever `FixedSet::Initialize(K)` returns, on a set
in any prior state and whatever draws it consumed, `Contains(k)` is true. -/
theorem roundtrip_membership (s0 s : FixedSet) (K : List Int) (draws rest : List Draw)
    (k : Int) (hn : K.length < 65536) (hk : k ∈ K) (hne : k ≠ INT_MAX)
    (H : s0.Initialize K draws = .ok (s, rest)) :
    s.Contains k = .ok true :=
  (Initialize_built H (List.ne_nil_of_mem hk) hn).answers_key hk hne

/-- Witness of C1 (amended): the key `100` of `[1, 2, 3, 100]`, in a run that
returns. -/
theorem roundtrip_membership_witness :
    build [1, 2, 3, 100] (List.replicate 5 ⟨1, 0⟩)
      = .ok (⟨⟨1, 0, 4⟩, [⟨⟨1, 0, 1⟩, [100]⟩, ⟨⟨1, 0, 1⟩, [1]⟩, ⟨⟨1, 0, 1⟩, [2]⟩,
                          ⟨⟨1, 0, 1⟩, [3]⟩]⟩, []) ∧
    FixedSet.Contains
        ⟨⟨1, 0, 4⟩, [⟨⟨1, 0, 1⟩, [100]⟩, ⟨⟨1, 0, 1⟩, [1]⟩, ⟨⟨1, 0, 1⟩, [2]⟩,
                     ⟨⟨1, 0, 1⟩, [3]⟩]⟩ 100
      = .ok true :=
  ⟨rfl, roundtrip_membership FixedSet.new _ [1, 2, 3, 100] (List.replicate 5 ⟨1, 0⟩) [] 100
    (by decide) (by decide) (by decide) rfl⟩

/-- C2, as stated, fails at the query `INT_MAX`: the set built from `[1, 2]`
with the draws `(2, 0)`, `(1, 0)` has an empty slot where `2147483647` hashes,
and `Contains(2147483647)` is true although `2147483647` is not a key. -/
theorem false_positive_for_sentinel_query :
    (∀ d ∈ [(⟨2, 0⟩ : Draw), ⟨1, 0⟩], d.inRange) ∧
    (2147483647 : Int) ∉ [(1 : Int), 2] ∧
    build [1, 2] [⟨2, 0⟩, ⟨1, 0⟩]
      = .ok (⟨⟨2, 0, 2⟩, [⟨⟨1, 0, 4⟩, [2147483647, 1, 2, 2147483647]⟩,
                          ⟨⟨1, 0, 0⟩, []⟩]⟩, []) ∧
    FixedSet.Contains
        ⟨⟨2, 0, 2⟩, [⟨⟨1, 0, 4⟩, [2147483647, 1, 2, 2147483647]⟩,
                     ⟨⟨1, 0, 0⟩, []⟩]⟩ 2147483647
      = .ok true := by
  refine ⟨by decide, by decide, rfl, rfl⟩

/-- Queries outside the key sequence and different from `INT_MAX` are answered
false, whatever the number of keys. -/
theorem contains_of_not_mem {s0 s : FixedSet} {K : List Int} {draws rest : List Draw}
    (h0 : K = [] → s0 = FixedSet.new)
    (H : s0.Initialize K draws = .ok (s, rest)) (x : Int) (hm : x ∉ K) (hx : x ≠ INT_MAX) :
    s.Contains x = .ok false := by
  by_cases hK : K = []
  · subst hK
    have hs0 := h0 rfl
    subst hs0
    simp only [FixedSet.Initialize, List.length_nil, if_true, Except.ok.injEq,
      Prod.mk.injEq] at H
    obtain ⟨rfl, -⟩ := H
    simp [FixedSet.Contains, FixedSet.new]
  · exact (Initialize_shaped H hK).answers_absent hm hx

/-- With fewer than `65536` keys, queries different from `INT_MAX` are answered
true exactly when they occur in the key sequence. -/
theorem contains_eq_decide_mem {s0 s : FixedSet} {K : List Int} {draws rest : List Draw}
    (h0 : K = [] → s0 = FixedSet.new) (hn : K.length < 65536)
    (H : s0.Initialize K draws = .ok (s, rest)) (x : Int) (hx : x ≠ INT_MAX) :
    s.Contains x = .ok (decide (x ∈ K)) := by
  by_cases hm : x ∈ K
  · rw [(Initialize_built H (List.ne_nil_of_mem hm) hn).answers_key hm hx]; simp [hm]
  · rw [contains_of_not_mem h0 H x hm hx]; simp [hm]

/-- C2 (amended): for every key sequence `K` and every `x` that is not in `K`
and is not `INT_MAX`, whenever `FixedSet::Initialize(K)` returns (called on a
fresh set as `main` does; for a non-empty `K` the prior state does not matter),
with whatever draws, `Contains(x)` is false. -/
theorem no_false_positives (s0 s : FixedSet) (K : List Int) (draws rest : List Draw)
    (x : Int) (h0 : K = [] → s0 = FixedSet.new) (hx : x ∉ K) (hne : x ≠ INT_MAX)
    (H : s0.Initialize K draws = .ok (s, rest)) :
    s.Contains x = .ok false :=
  contains_of_not_mem h0 H x hx hne

/-- Witness of C2 (amended): the query `50` on the set built from `[1, 2]`. -/
theorem no_false_positives_witness :
    FixedSet.Contains
        ⟨⟨2, 0, 2⟩, [⟨⟨1, 0, 4⟩, [2147483647, 1, 2, 2147483647]⟩,
                     ⟨⟨1, 0, 0⟩, []⟩]⟩ 50
      = .ok false :=
  no_false_positives FixedSet.new _ [1, 2] [⟨2, 0⟩, ⟨1, 0⟩] [] 50
    (by decide) (by decide) (by decide) rfl

/-- C3 (the code departs from it): for `K` = `65536` copies of the key `5` (no key is the
marker `INT_MAX`, nor is the query `5`): whatever pair the first call of
`Randomize` draws, all keys fall in one bucket, `total_size` is
`65536 * 65536`, which the `int` holds as `0`, so `CheckPrimaryHash` accepts at
once; `table_size` is `0` as well, every inner table is left without slots,
`FixedSet::Initialize(K)` returns, and `Contains(5)` is false although `5`
occurs in `K`. -/
theorem membership_lost_by_overflow (d : Draw) (draws : List Draw) :
    (5 : Int) ∈ List.replicate 65536 (5 : Int) ∧
    (∀ k ∈ List.replicate 65536 (5 : Int), k ≠ INT_MAX) ∧ (5 : Int) ≠ INT_MAX ∧
    ∃ s : FixedSet, build (List.replicate 65536 5) (d :: draws) = .ok (s, draws) ∧
      s.Contains 5 = .ok false := by
  obtain ⟨j, -, -, hrun⟩ := overflow_run_equal_keys 5 d draws
  refine ⟨List.mem_replicate.mpr ⟨by decide, rfl⟩,
    fun k hk => by rw [List.eq_of_mem_replicate hk]; decide, by decide, _, hrun, ?_⟩
  exact overflow_run_answers d 5

/-- Below the length at which `total_size` can wrap, the property of C3 holds:
for every key sequence `K` of fewer than `65536` keys, whenever
`FixedSet::Initialize(K)` returns (on a fresh set, or on any set when `K` is
non-empty), with whatever draws, every query `x` other than `INT_MAX` is
answered true exactly when `x` occurs in `K`; and for `K = [1, 2, 3, 100]` the
queries `[2, 50, 100, -1]` are answered `[true, false, true, false]`. -/
theorem exact_membership_away_from_sentinel (s0 s : FixedSet) (K : List Int)
    (draws rest : List Draw) (h0 : K = [] → s0 = FixedSet.new) (hn : K.length < 65536)
    (H : s0.Initialize K draws = .ok (s, rest)) :
    (∀ x : Int, x ≠ INT_MAX → s.Contains x = .ok (decide (x ∈ K))) ∧
    (K = [1, 2, 3, 100] →
      [2, 50, 100, -1].map s.Contains = [.ok true, .ok false, .ok true, .ok false]) := by
  refine ⟨fun x hx => contains_eq_decide_mem h0 hn H x hx, fun hK4 => ?_⟩
  subst hK4
  simp only [List.map_cons, List.map_nil]
  rw [contains_eq_decide_mem h0 hn H 2 (by decide),
    contains_eq_decide_mem h0 hn H 50 (by decide),
    contains_eq_decide_mem h0 hn H 100 (by decide),
    contains_eq_decide_mem h0 hn H (-1) (by decide)]
  decide

/-- A run of `build [1, 2, 3, 100]` that returns, with draws in the range of
`Randomize`, and its answers. -/
theorem exact_membership_witness :
    (∀ d ∈ List.replicate 5 (⟨1, 0⟩ : Draw), d.inRange) ∧
    build [1, 2, 3, 100] (List.replicate 5 ⟨1, 0⟩)
      = .ok (⟨⟨1, 0, 4⟩, [⟨⟨1, 0, 1⟩, [100]⟩, ⟨⟨1, 0, 1⟩, [1]⟩, ⟨⟨1, 0, 1⟩, [2]⟩,
                          ⟨⟨1, 0, 1⟩, [3]⟩]⟩, []) ∧
    (∀ x : Int, x ≠ INT_MAX →
      FixedSet.Contains
          ⟨⟨1, 0, 4⟩, [⟨⟨1, 0, 1⟩, [100]⟩, ⟨⟨1, 0, 1⟩, [1]⟩, ⟨⟨1, 0, 1⟩, [2]⟩,
                       ⟨⟨1, 0, 1⟩, [3]⟩]⟩ x
        = .ok (decide (x ∈ [(1 : Int), 2, 3, 100]))) ∧
    ([(1 : Int), 2, 3, 100] = [1, 2, 3, 100] →
      [2, 50, 100, -1].map (FixedSet.Contains
          ⟨⟨1, 0, 4⟩, [⟨⟨1, 0, 1⟩, [100]⟩, ⟨⟨1, 0, 1⟩, [1]⟩, ⟨⟨1, 0, 1⟩, [2]⟩,
                       ⟨⟨1, 0, 1⟩, [3]⟩]⟩)
        = [.ok true, .ok false, .ok true, .ok false]) :=
  ⟨by decide, rfl,
    exact_membership_away_from_sentinel FixedSet.new _ [1, 2, 3, 100]
      (List.replicate 5 ⟨1, 0⟩) [] (by decide) (by decide) rfl⟩

/-- C4: on a freshly constructed `FixedSet`, `Initialize` with the empty key
sequence returns at once, leaving the set and the random source as they were;
`Contains(x)` is then false for every `x`, in particular for the queries
`[0, 1, -1]`.  No hash function is evaluated: the set holds no inner table,
any evaluation of its primary hash (image size 0) would be a fault and not an
answer, and the answer is the same whatever hash function stands in its
place. -/
theorem empty_set_contains_nothing (draws : List Draw) (x : Int) :
    build [] draws = .ok (FixedSet.new, draws) ∧
    FixedSet.new.Contains x = .ok false ∧
    [0, 1, -1].map FixedSet.new.Contains = [.ok false, .ok false, .ok false] ∧
    FixedSet.new.secondary_hash_tables_ = [] ∧
    FixedSet.new.primary_hash_.hashKey x = .error .moduloByZero ∧
    (∀ h : LinearHashFunction, FixedSet.Contains ⟨h, []⟩ x = .ok false) := by
  refine ⟨rfl, rfl, rfl, rfl, ?_, fun h => rfl⟩
  simp [LinearHashFunction.hashKey, LinearHashFunction.call, FixedSet.new,
    LinearHashFunction.new, toSizeT]

/-- C5, as stated, fails at the query `INT_MAX`: a set built from `[5, 5, 5]`
(draws `(3, 0)`, `(1, 0)`) answers it true, a set built from its distinct keys
`[5]` answers it false. -/
theorem duplicate_collapse_fails_for_sentinel_query :
    (∀ d ∈ [(⟨3, 0⟩ : Draw), ⟨1, 0⟩, ⟨1, 0⟩, ⟨1, 0⟩], d.inRange) ∧
    [(5 : Int), 5, 5].dedup = [5] ∧
    build [5, 5, 5] [⟨3, 0⟩, ⟨1, 0⟩]
      = .ok (⟨⟨3, 0, 3⟩,
          [⟨⟨1, 0, 9⟩, [2147483647, 2147483647, 2147483647, 2147483647, 2147483647, 5,
                        2147483647, 2147483647, 2147483647]⟩,
           ⟨⟨1, 0, 0⟩, []⟩, ⟨⟨1, 0, 0⟩, []⟩]⟩, []) ∧
    build [5] [⟨1, 0⟩, ⟨1, 0⟩] = .ok (⟨⟨1, 0, 1⟩, [⟨⟨1, 0, 1⟩, [5]⟩]⟩, []) ∧
    FixedSet.Contains
        ⟨⟨3, 0, 3⟩,
          [⟨⟨1, 0, 9⟩, [2147483647, 2147483647, 2147483647, 2147483647, 2147483647, 5,
                        2147483647, 2147483647, 2147483647]⟩,
           ⟨⟨1, 0, 0⟩, []⟩, ⟨⟨1, 0, 0⟩, []⟩]⟩ 2147483647
      = .ok true ∧
    FixedSet.Contains ⟨⟨1, 0, 1⟩, [⟨⟨1, 0, 1⟩, [5]⟩]⟩ 2147483647 = .ok false := by
  refine ⟨by decide, by decide, rfl, rfl, rfl, rfl⟩

/-- C5 (amended): for every key sequence `K` of fewer than `65536` keys and
every sequence `K1` of fewer than `65536` keys with the same keys (such as the
sequence of the distinct keys of `K`, which is no longer than `K`), any set
built from `K` answers every query `x` other than `INT_MAX` exactly as any set
built from `K1` does, whatever draws each build consumed; and a set built from
`[5, 5, 5]` contains `5`. -/
theorem duplicate_collapse (K K1 : List Int) (draws draws1 rest rest1 : List Draw)
    (s s1 : FixedSet) (hn : K.length < 65536) (hn1 : K1.length < 65536)
    (hsame : ∀ x : Int, x ∈ K1 ↔ x ∈ K)
    (H : build K draws = .ok (s, rest)) (H1 : build K1 draws1 = .ok (s1, rest1)) :
    (∀ x : Int, x ≠ INT_MAX → s.Contains x = s1.Contains x) ∧
    (K = [5, 5, 5] → s.Contains 5 = .ok true) := by
  refine ⟨fun x hx => ?_, fun hK => ?_⟩
  · rw [contains_eq_decide_mem (fun _ => rfl) hn H x hx,
      contains_eq_decide_mem (fun _ => rfl) hn1 H1 x hx]
    simp only [hsame x]
  · subst hK
    rw [contains_eq_decide_mem (fun _ => rfl) hn H 5 (by decide)]
    decide

/-- Witness of C5 (amended): the sets built from `[5, 5, 5]` and from `[5]`. -/
theorem duplicate_collapse_witness :
    (∀ x : Int, x ≠ INT_MAX →
      FixedSet.Contains
          ⟨⟨3, 0, 3⟩,
            [⟨⟨1, 0, 9⟩, [2147483647, 2147483647, 2147483647, 2147483647, 2147483647, 5,
                          2147483647, 2147483647, 2147483647]⟩,
             ⟨⟨1, 0, 0⟩, []⟩, ⟨⟨1, 0, 0⟩, []⟩]⟩ x
        = FixedSet.Contains ⟨⟨1, 0, 1⟩, [⟨⟨1, 0, 1⟩, [5]⟩]⟩ x) ∧
    ([(5 : Int), 5, 5] = [5, 5, 5] →
      FixedSet.Contains
          ⟨⟨3, 0, 3⟩,
            [⟨⟨1, 0, 9⟩, [2147483647, 2147483647, 2147483647, 2147483647, 2147483647, 5,
                          2147483647, 2147483647, 2147483647]⟩,
             ⟨⟨1, 0, 0⟩, []⟩, ⟨⟨1, 0, 0⟩, []⟩]⟩ 5
        = .ok true) :=
  duplicate_collapse [5, 5, 5] [5] [⟨3, 0⟩, ⟨1, 0⟩] [⟨1, 0⟩, ⟨1, 0⟩] [] [] _ _
    (by decide) (by decide) (by intro x; simp) rfl rfl

/-! ## Invariants of the built structure (C8, C9) -/

/-- C8 (the code departs from it): for the non-empty `K` = `65536` copies of the key `5`:
whatever pair the first call of `Randomize` draws, `FixedSet::Initialize(K)`
returns with that primary hash accepted, because the `int total_size` holds
the sum `65536 * 65536` as `0`; the sum over the bucket indices `i < |K|` of
the squared number of positions of `K` whose key hashes to `i` is
`4294967296`, which is not `< 4 * |K|`. -/
theorem memory_bound_broken_by_overflow (d : Draw) (draws : List Draw) :
    List.replicate 65536 (5 : Int) ≠ [] ∧
    (List.replicate 65536 (5 : Int)).length = 65536 ∧
    ∃ s : FixedSet, build (List.replicate 65536 5) (d :: draws) = .ok (s, draws) ∧
      sumSquaredOccupancies s.primary_hash_ (List.replicate 65536 5) 65536 = 4294967296 ∧
      ¬ sumSquaredOccupancies s.primary_hash_ (List.replicate 65536 5) 65536 < 4 * 65536 := by
  obtain ⟨j, hlt, hj, hrun⟩ := overflow_run_equal_keys 5 d draws
  have hsum := sumSquaredOccupancies_replicate
    ((LinearHashFunction.new 65536).Randomize d) 65536 65536 5 j hj hlt
  refine ⟨fun h => ?_, List.length_replicate _ _, _, hrun, hsum, ?_⟩
  · have hl := congrArg List.length h
    rw [List.length_replicate] at hl
    cases hl
  · rw [hsum]
    decide

/-- Below the length at which `total_size` can wrap, the property of C8 holds:
whenever `FixedSet::Initialize(K)` returns for a non-empty `K` of fewer than
`65536` keys, the sum over the bucket indices `i < |K|` of the squared number
of positions of `K` whose key hashes to `i` under the accepted primary hash is
`< 4 * |K|`. -/
theorem memory_bound (s0 s : FixedSet) (K : List Int) (draws rest : List Draw)
    (hK : K ≠ []) (hn : K.length < 65536) (H : s0.Initialize K draws = .ok (s, rest)) :
    sumSquaredOccupancies s.primary_hash_ K K.length < 4 * K.length :=
  (Initialize_built H hK hn).accepted_primary.bound

/-- The primary hash accepted for `[1, 2, 3, 100]` keeps the bound. -/
theorem memory_bound_witness :
    sumSquaredOccupancies ⟨1, 0, 4⟩ [1, 2, 3, 100] 4 < 4 * 4 :=
  memory_bound FixedSet.new
    ⟨⟨1, 0, 4⟩, [⟨⟨1, 0, 1⟩, [100]⟩, ⟨⟨1, 0, 1⟩, [1]⟩, ⟨⟨1, 0, 1⟩, [2]⟩, ⟨⟨1, 0, 1⟩, [3]⟩]⟩
    [1, 2, 3, 100] (List.replicate 5 ⟨1, 0⟩) [] (by decide) (by decide) rfl

/-- C9, as stated, fails when one of the keys is `INT_MAX`: the set built from
`[2147483647, 0]` is returned, its distinct keys `2147483647` and `0` have the
same primary hash `0`, and the secondary hash accepted for inner table `0`
sends both to slot `0`. -/
theorem slot_shared_with_sentinel_key :
    build [2147483647, 0] [⟨1, 0⟩, ⟨1, 0⟩]
      = .ok (⟨⟨1, 0, 2⟩, [⟨⟨1, 0, 4⟩, [0, 2147483647, 2147483647, 2147483647]⟩,
                          ⟨⟨1, 0, 0⟩, []⟩]⟩, []) ∧
    (2147483647 : Int) ∈ [(2147483647 : Int), 0] ∧ (0 : Int) ∈ [(2147483647 : Int), 0] ∧
    (2147483647 : Int) ≠ 0 ∧
    LinearHashFunction.hashKey ⟨1, 0, 2⟩ 2147483647 = .ok 0 ∧
    LinearHashFunction.hashKey ⟨1, 0, 2⟩ 0 = .ok 0 ∧
    [(⟨⟨1, 0, 4⟩, [0, 2147483647, 2147483647, 2147483647]⟩ : HashTable),
        ⟨⟨1, 0, 0⟩, []⟩][0]?
      = some ⟨⟨1, 0, 4⟩, [0, 2147483647, 2147483647, 2147483647]⟩ ∧
    LinearHashFunction.hashKey ⟨1, 0, 4⟩ 2147483647 = .ok 0 ∧
    LinearHashFunction.hashKey ⟨1, 0, 4⟩ 0 = .ok 0 := by
  refine ⟨rfl, by decide, by decide, by decide, rfl, rfl, rfl, rfl, rfl⟩

/-- C9 (amended): whenever `FixedSet::Initialize(K)` returns for a `K` of fewer
than `65536` keys, any two distinct keys `k1`, `k2` of `K`, neither equal to
`INT_MAX`, that have the same primary hash value `i` are sent to different
slots by the secondary hash accepted for inner table `i`. -/
theorem slot_uniqueness (s0 s : FixedSet) (K : List Int) (draws rest : List Draw)
    (k1 k2 : Int) (i : Nat) (hn : K.length < 65536) (h1 : k1 ∈ K) (h2 : k2 ∈ K)
    (hne : k1 ≠ k2)
    (hu1 : k1 ≠ INT_MAX) (hu2 : k2 ≠ INT_MAX)
    (H : s0.Initialize K draws = .ok (s, rest))
    (hp1 : s.primary_hash_.hashKey k1 = .ok i) (hp2 : s.primary_hash_.hashKey k2 = .ok i) :
    ∃ (t : HashTable) (j1 j2 : Nat), s.secondary_hash_tables_[i]? = some t ∧
      t.hash_.hashKey k1 = .ok j1 ∧ t.hash_.hashKey k2 = .ok j2 ∧ j1 ≠ j2 := by
  have hb := Initialize_built H (List.ne_nil_of_mem h1) hn
  obtain ⟨i1, t, hi1, -, ht, -⟩ := hb.route k1
  rw [hp1] at hi1
  cases hi1
  have hm1 : k1 ∈ K.filter (s.primary_hash_.sendsTo i) :=
    List.mem_filter.mpr ⟨h1, sendsTo_iff.mpr hp1⟩
  have hm2 : k2 ∈ K.filter (s.primary_hash_.sendsTo i) :=
    List.mem_filter.mpr ⟨h2, sendsTo_iff.mpr hp2⟩
  have hacc := hb.accepted i t ht (List.ne_nil_of_mem hm1)
  obtain ⟨j1, -, hj1, -, -⟩ := hacc.slot k1
  obtain ⟨j2, -, hj2, -, -⟩ := hacc.slot k2
  refine ⟨t, j1, j2, ht, hj1, hj2, fun hj => ?_⟩
  subst hj
  exact hne (hacc.injective hm1 hm2 hu1 hu2 hj1 hj2)

/-- At `65536` keys the conclusion of C9 (amended) can fail: for `65535` copies
of `5` followed by `65541`, with the draw `(1, 0)`, the two distinct keys both
have primary hash `5`, the `int total_size` holds `65536 * 65536` as `0`, the
run returns, and inner table `5` has no slot and a hash of image size `0`,
which sends no key to any slot. -/
theorem slots_lost_by_overflow (draws : List Draw) :
    (⟨1, 0⟩ : Draw).inRange ∧
    (List.replicate 65535 (5 : Int) ++ [65541]).length = 65536 ∧
    (5 : Int) ∈ List.replicate 65535 (5 : Int) ++ [65541] ∧
    (65541 : Int) ∈ List.replicate 65535 (5 : Int) ++ [65541] ∧
    ∃ s : FixedSet,
      build (List.replicate 65535 5 ++ [65541]) (⟨1, 0⟩ :: draws) = .ok (s, draws) ∧
      s.primary_hash_.hashKey 5 = .ok 5 ∧ s.primary_hash_.hashKey 65541 = .ok 5 ∧
      s.secondary_hash_tables_[5]? = some HashTable.new ∧
      HashTable.new.table_ = [] ∧
      (∀ k : Int, HashTable.new.hash_.hashKey k = .error .moduloByZero) := by
  have hlen : (List.replicate 65535 (5 : Int) ++ [65541]).length = 65536 := by
    rw [List.length_append, List.length_replicate]
    rfl
  have h5 : ((LinearHashFunction.new 65536).Randomize ⟨1, 0⟩).hashKey 5 = .ok 5 := rfl
  have h6 : ((LinearHashFunction.new 65536).Randomize ⟨1, 0⟩).hashKey 65541 = .ok 5 := rfl
  have hall : ∀ k ∈ List.replicate 65535 (5 : Int) ++ [65541],
      ((LinearHashFunction.new 65536).Randomize ⟨1, 0⟩).hashKey k = .ok 5 := by
    intro k hk
    rcases List.mem_append.mp hk with h | h
    · rw [List.eq_of_mem_replicate h]
      exact h5
    · rw [List.mem_singleton.mp h]
      exact h6
  refine ⟨by decide, hlen, List.mem_append_left _ (List.mem_replicate.mpr ⟨by decide, rfl⟩),
    List.mem_append_right _ (List.mem_singleton.mpr rfl), _,
    overflow_run_one_bucket _ ⟨1, 0⟩ draws 5 hlen hall, h5, h6,
    List.getElem?_replicate_of_lt (by decide), rfl, fun k => ?_⟩
  simp [LinearHashFunction.hashKey, LinearHashFunction.call, HashTable.new,
    LinearHashFunction.new, toSizeT]

/-- Witness of C9 (amended): the keys `1` and `2` of `[1, 2]` under the primary
hash `(2, 0)`, which puts both in bucket `0`. -/
theorem slot_uniqueness_witness :
    ∃ (t : HashTable) (j1 j2 : Nat),
      [(⟨⟨1, 0, 4⟩, [2147483647, 1, 2, 2147483647]⟩ : HashTable), ⟨⟨1, 0, 0⟩, []⟩][0]?
        = some t ∧
      t.hash_.hashKey 1 = .ok j1 ∧ t.hash_.hashKey 2 = .ok j2 ∧ j1 ≠ j2 :=
  slot_uniqueness FixedSet.new
    ⟨⟨2, 0, 2⟩, [⟨⟨1, 0, 4⟩, [2147483647, 1, 2, 2147483647]⟩, ⟨⟨1, 0, 0⟩, []⟩]⟩
    [1, 2] [⟨2, 0⟩, ⟨1, 0⟩] [] 1 2 0
    (by decide) (by decide) (by decide) (by decide) (by decide) (by decide) rfl rfl rfl

/-! ## Termination of the retry loops (C6, C7) -/

theorem check_four_equal (hash : LinearHashFunction) (h : hash.image_size_ = 4) :
    FixedSet.CheckPrimaryHash [5, 5, 5, 5] hash = .ok false := by
  obtain ⟨j, hj, hlt⟩ := hashKey_total (by rw [h]; decide) 5
  rw [h] at hlt
  unfold FixedSet.CheckPrimaryHash
  simp only [FixedSet.countSizes, hj]
  interval_cases j <;> rfl

theorem choosePrimary_four_equal :
    ∀ (draws : List Draw) (hash : LinearHashFunction), hash.image_size_ = 4 →
      FixedSet.choosePrimary [5, 5, 5, 5] hash draws = .error .drawsExhausted
  | [], _, _ => rfl
  | d :: draws, hash, h => by
    unfold FixedSet.choosePrimary
    rw [check_four_equal (hash.Randomize d) h]
    exact choosePrimary_four_equal draws _ h

/-- C6 (the code departs from it): for the key sequence `[5, 5, 5, 5]` every
member of the hash family with image size 4 is rejected by `CheckPrimaryHash`
(all four positions fall in one bucket, and `16 < 16` is false), so the primary
retry loop of `FixedSet::Initialize` never ends, whatever the random source
yields and whatever the prior state of the set. -/
theorem four_equal_keys_never_accepted (s0 : FixedSet) (draws : List Draw) :
    (∀ a b : Nat, FixedSet.CheckPrimaryHash [5, 5, 5, 5] ⟨a, b, 4⟩ = .ok false) ∧
    s0.Initialize [5, 5, 5, 5] draws = .error .drawsExhausted := by
  refine ⟨fun a b => check_four_equal _ rfl, ?_⟩
  unfold FixedSet.Initialize
  rw [if_neg (by decide), choosePrimary_four_equal draws _ rfl]

theorem hash_zero_eq_hash_max (hash : LinearHashFunction) (m : Nat) (hm : 0 < m)
    (h : hash.image_size_ = m)
    (ha : hash.multiplier_ ≤ PRIME_BASE_ - 1) (hb : hash.increment_ ≤ PRIME_BASE_ - 1) :
    ∃ j, j < m ∧ hash.hashKey 0 = .ok j ∧ hash.hashKey 2147483647 = .ok j := by
  refine ⟨hash.increment_ % PRIME_BASE_ % m, Nat.mod_lt _ hm, ?_, ?_⟩
  · simp only [LinearHashFunction.hashKey, LinearHashFunction.call, h]
    have h0 : toSizeT 0 = 0 := by decide
    have e : hash.increment_ % SIZE_MOD = hash.increment_ :=
      Nat.mod_eq_of_lt (by unfold PRIME_BASE_ at hb; unfold SIZE_MOD; omega)
    rw [if_neg (by omega), h0, Nat.mul_zero, Nat.zero_add, e]
  · simp only [LinearHashFunction.hashKey, LinearHashFunction.call, h]
    have h0 : toSizeT 2147483647 = PRIME_BASE_ := by decide
    have hlt : hash.multiplier_ * PRIME_BASE_ + hash.increment_ < SIZE_MOD := by
      unfold PRIME_BASE_ at *
      unfold SIZE_MOD
      have : hash.multiplier_ * 2147483647 ≤ 2147483646 * 2147483647 :=
        Nat.mul_le_mul_right _ ha
      omega
    have e : (hash.multiplier_ * PRIME_BASE_ + hash.increment_) % SIZE_MOD
        = hash.multiplier_ * PRIME_BASE_ + hash.increment_ := Nat.mod_eq_of_lt hlt
    have e2 : (hash.multiplier_ * PRIME_BASE_ + hash.increment_) % PRIME_BASE_
        = hash.increment_ % PRIME_BASE_ := by
      rw [Nat.add_comm, Nat.add_mul_mod_self_right]
    rw [if_neg (by omega), h0, e, e2]


theorem place_zero_then_max (hash : LinearHashFunction) (h : hash.image_size_ = 4)
    (ha : hash.multiplier_ ≤ PRIME_BASE_ - 1) (hb : hash.increment_ ≤ PRIME_BASE_ - 1) :
    ∃ t, HashTable.place hash [0, 2147483647] (List.replicate 4 UNDEFINED) = .ok (true, t) := by
  obtain ⟨j, hlt, h0, h1⟩ := hash_zero_eq_hash_max hash 4 (by decide) h ha hb
  simp only [HashTable.place, h0, h1]
  interval_cases j <;> exact ⟨_, rfl⟩

theorem retry_zero_then_max :
    ∀ (draws : List Draw) (hash : LinearHashFunction), hash.image_size_ = 4 →
      (∀ d ∈ draws, d.inRange) →
      HashTable.retry [0, 2147483647] 4 hash draws = .error .drawsExhausted
  | [], _, _, _ => rfl
  | d :: draws, hash, h, hd => by
    have hr := hd d (List.mem_cons_self _ _)
    have hd1 : d.multiplier % SIZE_MOD = d.multiplier :=
      Nat.mod_eq_of_lt (by
        have := hr.2.1
        unfold PRIME_BASE_ at this
        unfold SIZE_MOD
        omega)
    have hd2 : d.increment % SIZE_MOD = d.increment :=
      Nat.mod_eq_of_lt (by
        have := hr.2.2
        unfold PRIME_BASE_ at this
        unfold SIZE_MOD
        omega)
    obtain ⟨t, ht⟩ := place_zero_then_max (hash.Randomize d) h
      (by simp only [LinearHashFunction.Randomize]; rw [hd1]; exact hr.2.1)
      (by simp only [LinearHashFunction.Randomize]; rw [hd2]; exact hr.2.2)
    unfold HashTable.retry
    have h4 : toSizeT 4 = 4 := by decide
    rw [h4, ht]
    exact retry_zero_then_max draws _ h (fun d1 hd1 => hd d1 (List.mem_cons_of_mem _ hd1))

theorem initialize_zero_then_max (t0 : HashTable) (draws : List Draw)
    (hd : ∀ d ∈ draws, d.inRange) :
    t0.Initialize [0, 2147483647] 4 draws = .error .drawsExhausted := by
  unfold HashTable.Initialize
  rw [if_neg (by decide), if_neg (by decide)]
  exact retry_zero_then_max draws _ (by decide) hd


theorem randomize_inRange (hash : LinearHashFunction) (d : Draw) (hr : d.inRange) :
    (hash.Randomize d).multiplier_ ≤ PRIME_BASE_ - 1 ∧
      (hash.Randomize d).increment_ ≤ PRIME_BASE_ - 1 := by
  simp only [LinearHashFunction.Randomize]
  exact ⟨le_trans (Nat.mod_le _ _) hr.2.1, le_trans (Nat.mod_le _ _) hr.2.2⟩

theorem build_zero_then_max (s0 : FixedSet) (draws : List Draw)
    (hd : ∀ d ∈ draws, d.inRange) :
    s0.Initialize [0, 2147483647] draws = .error .drawsExhausted := by
  unfold FixedSet.Initialize
  rw [if_neg (by decide)]
  cases draws with
  | nil => rfl
  | cons d draws =>
    have hr := randomize_inRange (LinearHashFunction.new (toInt 2)) d
      (hd d (List.mem_cons_self _ _))
    have hd1 : ∀ d1 ∈ draws, d1.inRange := fun d1 h1 => hd d1 (List.mem_cons_of_mem _ h1)
    obtain ⟨j, hlt, h0, h1⟩ := hash_zero_eq_hash_max
      ((LinearHashFunction.new (toInt 2)).Randomize d) 2 (by decide) rfl hr.1 hr.2
    obtain ⟨t1, t2, hts⟩ := List.length_eq_two.mp
      (resizeTables_length s0.secondary_hash_tables_ 2)
    simp only [FixedSet.choosePrimary, List.length_cons, List.length_nil]
    interval_cases j
    · have hc : FixedSet.CheckPrimaryHash [0, 2147483647]
          ((LinearHashFunction.new (toInt 2)).Randomize d) = .ok true := by
        unfold FixedSet.CheckPrimaryHash
        simp only [FixedSet.countSizes, h0, h1]
        rfl
      have hb : FixedSet.CreatePrimaryHashTable [0, 2147483647]
          ((LinearHashFunction.new (toInt 2)).Randomize d) = .ok [[0, 2147483647], []] := by
        unfold FixedSet.CreatePrimaryHashTable
        simp only [FixedSet.fillBuckets, h0, h1]
        rfl
      simp only [hc, hb, if_true, List.length_cons, List.length_nil, hts]
      unfold FixedSet.initTables
      have h4 : toInt (2 * 2 % SIZE_MOD) = 4 := by decide
      simp only [List.length_cons, List.length_nil, h4,
        initialize_zero_then_max t1 draws hd1]
      rfl
    · have hc : FixedSet.CheckPrimaryHash [0, 2147483647]
          ((LinearHashFunction.new (toInt 2)).Randomize d) = .ok true := by
        unfold FixedSet.CheckPrimaryHash
        simp only [FixedSet.countSizes, h0, h1]
        rfl
      have hb : FixedSet.CreatePrimaryHashTable [0, 2147483647]
          ((LinearHashFunction.new (toInt 2)).Randomize d) = .ok [[], [0, 2147483647]] := by
        unfold FixedSet.CreatePrimaryHashTable
        simp only [FixedSet.fillBuckets, h0, h1]
        rfl
      simp only [hc, hb, if_true, List.length_cons, List.length_nil, hts]
      have h4 : toInt (2 * 2 % SIZE_MOD) = 4 := by decide
      have he : t1.Initialize [] (toInt (0 * 0 % SIZE_MOD)) draws
          = .ok ({ t1 with table_ := [] }, draws) := rfl
      simp only [FixedSet.initTables, List.length_cons, List.length_nil, h4, he,
        initialize_zero_then_max t2 draws hd1]
      rfl


/-- C7 (the code departs from it): for the two keys `[0, 2147483647]` and table
size `4 = 2 * 2`, every member of the hash family (multiplier in `[1, P-1]`,
increment in `[0, P-1]`, image size 4) sends both keys to the same slot and the
trial ends with `have_collisions = true`; so `HashTable::Initialize` never
returns on them, and neither does `FixedSet::Initialize([0, 2147483647])`,
whose primary hash always puts the two keys, in this order, in one bucket. -/
theorem zero_then_max_never_placed (t0 : HashTable) (s0 : FixedSet) (draws : List Draw)
    (hd : ∀ d ∈ draws, d.inRange) :
    (∀ a b : Nat, 1 ≤ a → a ≤ PRIME_BASE_ - 1 → b ≤ PRIME_BASE_ - 1 →
      ∃ t, HashTable.place ⟨a, b, 4⟩ [0, 2147483647] (List.replicate 4 UNDEFINED)
        = .ok (true, t)) ∧
    t0.Initialize [0, 2147483647] 4 draws = .error .drawsExhausted ∧
    s0.Initialize [0, 2147483647] draws = .error .drawsExhausted :=
  ⟨fun a b _ ha hb => place_zero_then_max ⟨a, b, 4⟩ rfl ha hb,
    initialize_zero_then_max t0 draws hd, build_zero_then_max s0 draws hd⟩

/-- Witness of C7: three draws in the range of `Randomize`. -/
theorem zero_then_max_never_placed_witness :
    (∀ a b : Nat, 1 ≤ a → a ≤ PRIME_BASE_ - 1 → b ≤ PRIME_BASE_ - 1 →
      ∃ t, HashTable.place ⟨a, b, 4⟩ [0, 2147483647] (List.replicate 4 UNDEFINED)
        = .ok (true, t)) ∧
    HashTable.new.Initialize [0, 2147483647] 4 [⟨1, 0⟩, ⟨2, 3⟩, ⟨2147483646, 2147483646⟩]
      = .error .drawsExhausted ∧
    FixedSet.new.Initialize [0, 2147483647] [⟨1, 0⟩, ⟨2, 3⟩, ⟨2147483646, 2147483646⟩]
      = .error .drawsExhausted :=
  zero_then_max_never_placed HashTable.new FixedSet.new
    [⟨1, 0⟩, ⟨2, 3⟩, ⟨2147483646, 2147483646⟩] (by decide)

/-! ## The hash formula (C10) -/

theorem toSizeT_cast (x : Int) : ((toSizeT x : Nat) : Int) = x % (SIZE_MOD : Int) := by
  unfold toSizeT
  exact Int.toNat_of_nonneg (Int.emod_nonneg _ (by decide))

theorem hashKey_value (a b m : Nat) (x : Int) (hm : 1 ≤ m) :
    ∃ i : Nat, LinearHashFunction.hashKey ⟨a, b, m⟩ x = .ok i ∧
      (i : Int) = (((a : Int) * x + b) % (SIZE_MOD : Int)) % (PRIME_BASE_ : Int) % (m : Int) := by
  refine ⟨(a * toSizeT x + b) % SIZE_MOD % PRIME_BASE_ % m, ?_, ?_⟩
  · simp only [LinearHashFunction.hashKey, LinearHashFunction.call]
    rw [if_neg (by omega)]
  · push_cast
    rw [toSizeT_cast]
    congr 2
    rw [Int.add_emod, Int.mul_emod, Int.emod_emod, ← Int.mul_emod, ← Int.add_emod]

/-- C10, as stated, fails for a negative key: with multiplier 1, increment 0
and image size 10 the code maps the key `-1` to `3` (the key becomes
`2^64 - 1`, and `(2^64 - 1) mod P = 3`), while `((1 * (-1) + 0) mod P) mod 10`
over the integers is `2147483646 mod 10 = 6`. -/
theorem hash_formula_fails_for_negative_key :
    (⟨1, 0⟩ : Draw).inRange ∧ INT_MIN ≤ (-1 : Int) ∧ (-1 : Int) ≤ INT_MAX ∧
    LinearHashFunction.hashKey ⟨1, 0, 10⟩ (-1) = .ok 3 ∧
    specHashFormula 1 0 10 (-1) = 6 := by
  refine ⟨by decide, by decide, by decide, rfl, by decide⟩

/-- C10 (amended): for every `int` key `x`, multiplier `a <= P-1`, increment
`b <= P-1` and image size `m >= 1`, `operator()` returns
`(((a*x + b) mod 2^64) mod P) mod m`; this is `((a*x + b) mod P) mod m` over the
integers whenever `a*x + b >= 0`, in particular for every key `x >= 0`. -/
theorem hash_formula (a b m : Nat) (x : Int) (ha : a ≤ PRIME_BASE_ - 1)
    (hb : b ≤ PRIME_BASE_ - 1) (hm : 1 ≤ m) (hx : x ≤ INT_MAX) :
    ∃ i : Nat, LinearHashFunction.hashKey ⟨a, b, m⟩ x = .ok i ∧
      (i : Int) = (((a : Int) * x + b) % (SIZE_MOD : Int)) % (PRIME_BASE_ : Int) % (m : Int) ∧
      (0 ≤ (a : Int) * x + b → (i : Int) = specHashFormula a b m x) ∧
      (0 ≤ x → (i : Int) = specHashFormula a b m x) := by
  obtain ⟨i, hi, hv⟩ := hashKey_value a b m x hm
  have key : 0 ≤ (a : Int) * x + b → (i : Int) = specHashFormula a b m x := by
    intro h0
    have ha' : (a : Int) ≤ 2147483646 := by
      unfold PRIME_BASE_ at ha
      omega
    have hb' : (b : Int) ≤ 2147483646 := by
      unfold PRIME_BASE_ at hb
      omega
    have hx' : x ≤ 2147483647 := hx
    have h1 : (a : Int) * x ≤ (a : Int) * 2147483647 :=
      mul_le_mul_of_nonneg_left hx' (by omega)
    have hlt : (a : Int) * x + b < (SIZE_MOD : Int) := by
      unfold SIZE_MOD
      push_cast
      omega
    rw [hv, Int.emod_eq_of_lt h0 hlt]
    rfl
  refine ⟨i, hi, hv, key, fun h0 => key ?_⟩
  have : 0 ≤ (a : Int) * x := mul_nonneg (by omega) h0
  omega

/-- Witness of C10 (amended): the key `100` under multiplier 3, increment 7,
image size 10. -/
theorem hash_formula_witness :
    ∃ i : Nat, LinearHashFunction.hashKey ⟨3, 7, 10⟩ 100 = .ok i ∧
      (i : Int) = (((3 : Nat) : Int) * 100 + (7 : Nat)) % (SIZE_MOD : Int)
        % (PRIME_BASE_ : Int) % ((10 : Nat) : Int) ∧
      (0 ≤ ((3 : Nat) : Int) * 100 + (7 : Nat) → (i : Int) = specHashFormula 3 7 10 100) ∧
      (0 ≤ (100 : Int) → (i : Int) = specHashFormula 3 7 10 100) :=
  hash_formula 3 7 10 100 (by decide) (by decide) (by decide) (by decide)

/-! ## Hash range and bucket partition (C11, C17) -/

/-- C11: for every key `x` (and every `size_t` argument `value`), every
multiplier `a` and increment `b`, in particular those the family can draw, and
every image size `m >= 1`, `operator()` returns an index `i` with
`0 <= i < m`. -/
theorem hash_range (a b m : Nat) (x : Int) (value : Nat) (hm : 1 ≤ m) :
    (∃ i : Nat, LinearHashFunction.call ⟨a, b, m⟩ value = .ok i ∧ 0 ≤ i ∧ i < m) ∧
    (∃ i : Nat, LinearHashFunction.hashKey ⟨a, b, m⟩ x = .ok i ∧ 0 ≤ i ∧ i < m) := by
  have hz : m ≠ 0 := by omega
  have key : ∀ v : Nat, ∃ i : Nat,
      LinearHashFunction.call ⟨a, b, m⟩ v = .ok i ∧ 0 ≤ i ∧ i < m := by
    intro v
    refine ⟨(a * v + b) % SIZE_MOD % PRIME_BASE_ % m, ?_, Nat.zero_le _,
      Nat.mod_lt _ (by omega)⟩
    simp only [LinearHashFunction.call, hz, if_false]
  exact ⟨key value, key (toSizeT x)⟩

/-- Witness of C11: the key `-7` and the argument `12` under the member
`(2147483646, 2147483646)` with image size `5`. -/
theorem hash_range_witness :
    (∃ i : Nat, LinearHashFunction.call ⟨2147483646, 2147483646, 5⟩ 12 = .ok i
      ∧ 0 ≤ i ∧ i < 5) ∧
    (∃ i : Nat, LinearHashFunction.hashKey ⟨2147483646, 2147483646, 5⟩ (-7) = .ok i
      ∧ 0 ≤ i ∧ i < 5) :=
  hash_range 2147483646 2147483646 5 (-7) 12 (by decide)

/-- C17: for every key sequence `values` of length `n >= 1` and every hash
function `h` with image size `n`, `CreatePrimaryHashTable(values, h)` returns
exactly `n` lists, list `i` is the subsequence of `values` (order and
repetitions kept) of the keys `v` with `h(v) = i`, and every input key lies in
the list of its hash value and in no other list. -/
theorem bucket_partition (values : List Int) (h : LinearHashFunction)
    (hn : 1 ≤ values.length) (himg : h.image_size_ = values.length) :
    ∃ hash_table : List (List Int),
      FixedSet.CreatePrimaryHashTable values h = .ok hash_table ∧
      hash_table.length = values.length ∧
      (∀ i : Nat, i < values.length →
        hash_table[i]? = some (values.filter (fun v => decide (h.hashKey v = .ok i)))) ∧
      (∀ v ∈ values, ∃ i : Nat, i < values.length ∧ h.hashKey v = .ok i ∧
        ∀ (j : Nat) (bucket : List Int), hash_table[j]? = some bucket →
          (v ∈ bucket ↔ j = i)) := by
  have hz : h.image_size_ ≠ 0 := by omega
  obtain ⟨hash_table, ht⟩ := fillBuckets_total hz values (List.replicate values.length [])
    (by simp [himg])
  have hspec := CreatePrimaryHashTable_spec ht
  have hfilter : ∀ i : Nat, values.filter (h.sendsTo i)
      = values.filter (fun v => decide (h.hashKey v = .ok i)) := by
    intro i
    apply List.filter_congr
    intro v _
    by_cases hv : h.hashKey v = .ok i
    · simp [hv, sendsTo_iff.mpr hv]
    · have : ¬ h.sendsTo i v = true := fun hs => hv (sendsTo_iff.mp hs)
      simp [hv, this]
  refine ⟨hash_table, ht, hspec.1, fun i hi => ?_, fun v hv => ?_⟩
  · rw [hspec.2 i hi, hfilter i]
  · obtain ⟨i, hi, hlt⟩ := hashKey_total hz v
    rw [himg] at hlt
    refine ⟨i, hlt, hi, fun j bucket hj => ?_⟩
    have hjlt : j < values.length := by
      rcases List.getElem?_eq_some.mp hj with ⟨hlt1, -⟩
      rw [hspec.1] at hlt1
      exact hlt1
    rw [hspec.2 j hjlt] at hj
    cases hj
    rw [List.mem_filter, sendsTo_iff, hi]
    constructor
    · rintro ⟨-, h1⟩
      exact (Except.ok.inj h1).symm
    · rintro rfl
      exact ⟨hv, rfl⟩

/-- Witness of C17: the keys `[1, 2, 3, 100, 2]` under the hash `(1, 0)` with
image size `5`. -/
theorem bucket_partition_witness :
    ∃ hash_table : List (List Int),
      FixedSet.CreatePrimaryHashTable [1, 2, 3, 100, 2] ⟨1, 0, 5⟩ = .ok hash_table ∧
      hash_table.length = [(1 : Int), 2, 3, 100, 2].length ∧
      (∀ i : Nat, i < [(1 : Int), 2, 3, 100, 2].length →
        hash_table[i]? = some ([(1 : Int), 2, 3, 100, 2].filter
          (fun v => decide (LinearHashFunction.hashKey ⟨1, 0, 5⟩ v = .ok i)))) ∧
      (∀ v ∈ [(1 : Int), 2, 3, 100, 2], ∃ i : Nat, i < [(1 : Int), 2, 3, 100, 2].length ∧
        LinearHashFunction.hashKey ⟨1, 0, 5⟩ v = .ok i ∧
        ∀ (j : Nat) (bucket : List Int), hash_table[j]? = some bucket →
          (v ∈ bucket ↔ j = i)) :=
  bucket_partition [1, 2, 3, 100, 2] ⟨1, 0, 5⟩ (by decide) rfl

/-! ## Shape of the built structure (C16) -/

theorem retry_length (values : List Int) (size : Int) :
    ∀ (draws : List Draw) (hash : LinearHashFunction) (t : HashTable) (rest : List Draw),
      HashTable.retry values size hash draws = .ok (t, rest) →
      t.table_.length = toSizeT size
  | [], _, _, _, H => by simp [HashTable.retry] at H
  | d :: draws, hash, t, rest, H => by
    unfold HashTable.retry at H
    split at H
    · cases H
    · rename_i c table hp
      have hlen := place_length _ _ _ _ hp
      split at H
      · exact retry_length values size draws _ t rest H
      · simp only [Except.ok.injEq, Prod.mk.injEq] at H
        obtain ⟨rfl, -⟩ := H
        simpa using hlen

theorem Initialize_length {self t : HashTable} {values : List Int} {size : Int}
    {draws rest : List Draw}
    (H : self.Initialize values size draws = .ok (t, rest)) :
    t.table_.length = if values.length = 0 ∨ size = 0 then 0 else toSizeT size := by
  unfold HashTable.Initialize at H
  split at H
  · rename_i h
    simp only [Except.ok.injEq, Prod.mk.injEq] at H
    obtain ⟨rfl, -⟩ := H
    rw [if_pos h]
    rfl
  · rename_i h
    rw [if_neg h]
    split at H
    · cases H
    · exact retry_length values size draws _ t rest H

theorem Initialize_slots {s0 s : FixedSet} {keys : List Int} {draws rest : List Draw}
    (H : s0.Initialize keys draws = .ok (s, rest)) (hne : keys ≠ [])
    (hn : keys.length < 65536)
    (i : Nat) (t : HashTable) (hi : s.secondary_hash_tables_[i]? = some t) :
    t.table_.length
      = occupancy s.primary_hash_ keys i * occupancy s.primary_hash_ keys i := by
  obtain ⟨hsq, t0, d, r, h⟩ := Initialize_tables H hne hn i t hi
  rw [Initialize_length h]
  by_cases hz : occupancy s.primary_hash_ keys i = 0
  · rw [if_pos (Or.inr (by simp [hz])), hz]
  · have hlen : (keys.filter (s.primary_hash_.sendsTo i)).length ≠ 0 := by
      simpa only [occupancy, List.countP_eq_length_filter] using hz
    have hpos : 0 < occupancy s.primary_hash_ keys i := Nat.pos_of_ne_zero hz
    have hmul : 0 < occupancy s.primary_hash_ keys i * occupancy s.primary_hash_ keys i :=
      Nat.mul_pos hpos hpos
    have hcast : ((occupancy s.primary_hash_ keys i * occupancy s.primary_hash_ keys i
        : Nat) : Int) ≠ 0 := by exact_mod_cast hmul.ne'
    rw [if_neg (by
      rintro (h1 | h1)
      · exact hlen h1
      · exact hcast h1)]
    exact toSizeT_natCast _ (by unfold SIZE_MOD; omega)

/-- C16 (the code departs from it): for the non-empty `K` = `65536` copies of the key
`5`: whatever pair the first call of `Randomize` draws,
`FixedSet::Initialize(K)` returns a set of `65536` inner tables in which the
table of the bucket `j` of the key `5` has no slot, although `c_j = 65536`
positions of `K` have primary hash `j` and `c_j * c_j = 4294967296`: the
`int table_size` holds that product as `0`. -/
theorem shape_broken_by_overflow (d : Draw) (draws : List Draw) :
    ∃ (s : FixedSet) (j : Nat) (t : HashTable),
      build (List.replicate 65536 5) (d :: draws) = .ok (s, draws) ∧
      s.secondary_hash_tables_.length = 65536 ∧
      s.primary_hash_.hashKey 5 = .ok j ∧
      s.secondary_hash_tables_[j]? = some t ∧
      occupancy s.primary_hash_ (List.replicate 65536 5) j = 65536 ∧
      t.table_.length = 0 ∧
      t.table_.length ≠ occupancy s.primary_hash_ (List.replicate 65536 5) j
        * occupancy s.primary_hash_ (List.replicate 65536 5) j := by
  obtain ⟨j, hlt, hj, hrun⟩ := overflow_run_equal_keys 5 d draws
  have hocc := occupancy_replicate ((LinearHashFunction.new 65536).Randomize d) 65536 5 j j hj
  rw [if_pos rfl] at hocc
  refine ⟨_, j, HashTable.new, hrun, List.length_replicate _ _, hj,
    List.getElem?_replicate_of_lt hlt, hocc, rfl, ?_⟩
  dsimp only
  rw [hocc]
  decide

/-- Below the length at which `total_size` can wrap, the property of C16
holds: whenever `FixedSet::Initialize(K)` returns for a non-empty `K` of length
`n < 65536`, the set holds exactly `n` inner tables, inner table `i` has
exactly `c_i * c_i` slots, `c_i` being the number of positions of `K` whose key
has primary hash `i` (no slot for an empty bucket), and the total number of
slots of all inner tables is `< 4 * n`. -/
theorem built_shape (s0 s : FixedSet) (K : List Int) (draws rest : List Draw)
    (hK : K ≠ []) (hn : K.length < 65536) (H : s0.Initialize K draws = .ok (s, rest)) :
    s.secondary_hash_tables_.length = K.length ∧
    (∀ (i : Nat) (t : HashTable), s.secondary_hash_tables_[i]? = some t →
      t.table_.length
          = occupancy s.primary_hash_ K i * occupancy s.primary_hash_ K i ∧
      (occupancy s.primary_hash_ K i = 0 → t.table_ = [])) ∧
    (s.secondary_hash_tables_.map (fun t => t.table_.length)).sum < 4 * K.length := by
  have hb := Initialize_built H hK hn
  have hslots := Initialize_slots H hK hn
  refine ⟨hb.length, fun i t hi => ⟨hslots i t hi, fun hz => ?_⟩, ?_⟩
  · apply List.eq_nil_of_length_eq_zero
    rw [hslots i t hi, hz]
  · have hmap : s.secondary_hash_tables_.map (fun t => t.table_.length)
        = (List.range K.length).map
            (fun i => occupancy s.primary_hash_ K i * occupancy s.primary_hash_ K i) := by
      apply List.ext_getElem?
      intro i
      by_cases hi : i < K.length
      · have hti : i < s.secondary_hash_tables_.length := by rw [hb.length]; exact hi
        rw [List.getElem?_map, List.getElem?_map, List.getElem?_eq_getElem hti,
          List.getElem?_range hi]
        simp only [Option.map_some']
        rw [hslots i _ (List.getElem?_eq_getElem hti)]
      · rw [List.getElem?_eq_none (by simp [hb.length]; omega),
          List.getElem?_eq_none (by simp; omega)]
    rw [hmap]
    exact hb.accepted_primary.bound

/-- The shape of the set built from `[1, 2]` with the primary hash `(2, 0)`,
which puts both keys in bucket `0`. -/
theorem built_shape_witness :
    [(⟨⟨1, 0, 4⟩, [2147483647, 1, 2, 2147483647]⟩ : HashTable), ⟨⟨1, 0, 0⟩, []⟩].length
      = [(1 : Int), 2].length ∧
    (∀ (i : Nat) (t : HashTable),
      [(⟨⟨1, 0, 4⟩, [2147483647, 1, 2, 2147483647]⟩ : HashTable), ⟨⟨1, 0, 0⟩, []⟩][i]?
        = some t →
      t.table_.length = occupancy ⟨2, 0, 2⟩ [1, 2] i * occupancy ⟨2, 0, 2⟩ [1, 2] i ∧
      (occupancy ⟨2, 0, 2⟩ [1, 2] i = 0 → t.table_ = [])) ∧
    ([(⟨⟨1, 0, 4⟩, [2147483647, 1, 2, 2147483647]⟩ : HashTable), ⟨⟨1, 0, 0⟩, []⟩].map
      (fun t => t.table_.length)).sum < 4 * [(1 : Int), 2].length :=
  built_shape FixedSet.new
    ⟨⟨2, 0, 2⟩, [⟨⟨1, 0, 4⟩, [2147483647, 1, 2, 2147483647]⟩, ⟨⟨1, 0, 0⟩, []⟩]⟩
    [1, 2] [⟨2, 0⟩, ⟨1, 0⟩] [] (by decide) (by decide) rfl

/-! ## Queries on an inner table and re-initialisation (C14, C15) -/

/-- C14, as stated, fails at the query `INT_MAX`: the table that
`HashTable::Initialize([1, 2], 4)` returns with the draw `(1, 0)` has slots,
the slot at index `h(2147483647) = 0` is empty (it holds the marker), and
`Contains(2147483647)` is true. -/
theorem inner_query_true_on_empty_slot :
    (⟨1, 0⟩ : Draw).inRange ∧
    HashTable.new.Initialize [1, 2] 4 [⟨1, 0⟩]
      = .ok (⟨⟨1, 0, 4⟩, [2147483647, 1, 2, 2147483647]⟩, []) ∧
    LinearHashFunction.hashKey ⟨1, 0, 4⟩ 2147483647 = .ok 0 ∧
    [(2147483647 : Int), 1, 2, 2147483647][0]? = some UNDEFINED ∧
    HashTable.Contains ⟨⟨1, 0, 4⟩, [2147483647, 1, 2, 2147483647]⟩ 2147483647
      = .ok true := by
  refine ⟨by decide, rfl, rfl, rfl, rfl⟩

/-- C14 (amended): for every `HashTable` produced by `Initialize` and every key
`x`, `Contains(x)` is false if the table has no slots, and otherwise is true if
and only if the key stored in the slot at index `h(x)` equals `x`; for every
`x` other than `INT_MAX` that is: the slot is non-empty (does not hold the
marker) and the key stored there equals `x`. -/
theorem inner_query (t0 t : HashTable) (values : List Int) (size : Int)
    (draws rest : List Draw) (x : Int)
    (H : t0.Initialize values size draws = .ok (t, rest)) :
    (t.table_.length = 0 → t.Contains x = .ok false) ∧
    (t.table_.length ≠ 0 →
      ∃ (slot : Nat) (stored : Int), t.hash_.hashKey x = .ok slot ∧
        t.table_[slot]? = some stored ∧
        t.Contains x = .ok (decide (stored = x)) ∧
        (x ≠ INT_MAX → t.Contains x = .ok (decide (stored ≠ UNDEFINED ∧ stored = x)))) := by
  refine ⟨fun h0 => Contains_of_nil (List.eq_nil_of_length_eq_zero h0) x, fun hne => ?_⟩
  rcases Initialize_cases H with h1 | h1
  · rw [h1.1] at hne
    exact absurd rfl hne
  · obtain ⟨slot, stored, hs, hst, hc⟩ := h1.2.2.slot x
    have hc1 : t.Contains x = .ok (decide (stored = x)) := by
      rw [hc]
      congr 1
      simp only [decide_eq_decide]
      exact eq_comm
    refine ⟨slot, stored, hs, hst, hc1, fun hx => ?_⟩
    rw [hc1]
    congr 1
    simp only [decide_eq_decide]
    constructor
    · intro h
      refine ⟨?_, h⟩
      rw [h]
      exact hx
    · exact fun h => h.2

/-- Witness of C14 (amended): the query `2` on the table built from `[1, 2]`
with size `4`. -/
theorem inner_query_witness :
    ((⟨⟨1, 0, 4⟩, [2147483647, 1, 2, 2147483647]⟩ : HashTable).table_.length = 0 →
      HashTable.Contains ⟨⟨1, 0, 4⟩, [2147483647, 1, 2, 2147483647]⟩ 2 = .ok false) ∧
    ((⟨⟨1, 0, 4⟩, [2147483647, 1, 2, 2147483647]⟩ : HashTable).table_.length ≠ 0 →
      ∃ (slot : Nat) (stored : Int),
        LinearHashFunction.hashKey ⟨1, 0, 4⟩ 2 = .ok slot ∧
        [(2147483647 : Int), 1, 2, 2147483647][slot]? = some stored ∧
        HashTable.Contains ⟨⟨1, 0, 4⟩, [2147483647, 1, 2, 2147483647]⟩ 2
          = .ok (decide (stored = 2)) ∧
        ((2 : Int) ≠ INT_MAX →
          HashTable.Contains ⟨⟨1, 0, 4⟩, [2147483647, 1, 2, 2147483647]⟩ 2
            = .ok (decide (stored ≠ UNDEFINED ∧ stored = 2)))) :=
  inner_query HashTable.new ⟨⟨1, 0, 4⟩, [2147483647, 1, 2, 2147483647]⟩ [1, 2] 4
    [⟨1, 0⟩] [] 2 rfl

/-- C15 (the code departs from it): `FixedSet::Initialize` with the empty key
sequence returns at once and leaves the set exactly as it was, whatever its
state.  On the set built from `[5]` it leaves the inner table in place, and
`Contains(5)` is still true afterwards; `HashTable::Initialize` with no values,
by contrast, clears the table. -/
theorem reinitialise_empty_keeps_old_keys (s : FixedSet) (t : HashTable) (size : Int)
    (draws : List Draw) :
    s.Initialize [] draws = .ok (s, draws) ∧
    t.Initialize [] size draws = .ok (⟨t.hash_, []⟩, draws) ∧
    build [5] [⟨1, 0⟩, ⟨1, 0⟩] = .ok (⟨⟨1, 0, 1⟩, [⟨⟨1, 0, 1⟩, [5]⟩]⟩, []) ∧
    FixedSet.Initialize ⟨⟨1, 0, 1⟩, [⟨⟨1, 0, 1⟩, [5]⟩]⟩ [] []
      = .ok (⟨⟨1, 0, 1⟩, [⟨⟨1, 0, 1⟩, [5]⟩]⟩, []) ∧
    FixedSet.Contains ⟨⟨1, 0, 1⟩, [⟨⟨1, 0, 1⟩, [5]⟩]⟩ 5 = .ok true := by
  refine ⟨rfl, ?_, rfl, rfl, rfl⟩
  simp [HashTable.Initialize]

/-! ## Determinism (C13) -/

theorem HashTable.sameAs.contains {t t1 : HashTable} (h : t.sameAs t1) (x : Int) :
    t.Contains x = t1.Contains x := by
  by_cases hn : t.table_ = []
  · rw [Contains_of_nil hn, Contains_of_nil (h.1 ▸ hn)]
  · unfold HashTable.Contains
    rw [← h.1, ← h.2 hn]

theorem Initialize_sameAs (t0 t1 : HashTable) (values : List Int) (size : Int)
    (draws : List Draw) :
    (∀ f, t0.Initialize values size draws = .error f →
      t1.Initialize values size draws = .error f) ∧
    (∀ t rest, t0.Initialize values size draws = .ok (t, rest) →
      ∃ u, t1.Initialize values size draws = .ok (u, rest) ∧ t.sameAs u) := by
  unfold HashTable.Initialize
  by_cases hc : values.length = 0 ∨ size = 0
  · refine ⟨fun f h => ?_, fun t rest h => ?_⟩
    · rw [if_pos hc] at h
      cases h
    · rw [if_pos hc] at h ⊢
      simp only [Except.ok.injEq, Prod.mk.injEq] at h
      obtain ⟨rfl, rfl⟩ := h
      exact ⟨_, rfl, rfl, fun hn => absurd rfl hn⟩
  · simp only [if_neg hc]
    exact ⟨fun f h => h, fun t rest h => ⟨t, h, rfl, fun _ => rfl⟩⟩

theorem initTables_sameAs :
    ∀ (ts us : List HashTable) (vss : List (List Int)) (index : Int) (draws : List Draw)
      (ts1 : List HashTable) (rest : List Draw),
      ts.length = vss.length → us.length = vss.length →
      FixedSet.initTables index ts vss draws = .ok (ts1, rest) →
      ∃ us1, FixedSet.initTables index us vss draws = .ok (us1, rest) ∧
        List.Forall₂ HashTable.sameAs ts1 us1
  | [], [], [], index, draws, ts1, rest, _, _, H => by
    by_cases hi : index < 0
    · simp [FixedSet.initTables, hi] at H
    · simp only [FixedSet.initTables, hi, if_false, Except.ok.injEq, Prod.mk.injEq] at H
      obtain ⟨rfl, rfl⟩ := H
      exact ⟨[], by simp [FixedSet.initTables, hi], List.Forall₂.nil⟩
  | [], _ :: _, [], _, _, _, _, _, hu, _ => by simp at hu
  | _ :: _, _, [], _, _, _, _, ht, _, _ => by simp at ht
  | [], _, _ :: _, _, _, _, _, ht, _, _ => by simp at ht
  | _ :: _, [], _ :: _, _, _, _, _, _, hu, _ => by simp at hu
  | t :: ts, u :: us, vs :: vss, index, draws, ts1, rest, ht, hu, H => by
    unfold FixedSet.initTables at H
    by_cases hi : index < 0
    · rw [if_pos hi] at H
      cases H
    · rw [if_neg hi] at H
      split at H
      · cases H
      · rename_i table1 draws1 h1
        split at H
        · cases H
        · rename_i tables1 draws2 h2
          simp only [Except.ok.injEq, Prod.mk.injEq] at H
          obtain ⟨rfl, rfl⟩ := H
          obtain ⟨u1, hu1, hsame⟩ := (Initialize_sameAs t u vs _ draws).2 _ _ h1
          obtain ⟨us1, hus1, hall⟩ := initTables_sameAs ts us vss _ draws1 tables1 draws2
            (by simpa using ht) (by simpa using hu) h2
          refine ⟨u1 :: us1, ?_, List.Forall₂.cons hsame hall⟩
          unfold FixedSet.initTables
          rw [if_neg hi]
          simp only [hu1, hus1]

theorem contains_of_sameAs {s s1 : FixedSet} (hp : s.primary_hash_ = s1.primary_hash_)
    (ht : List.Forall₂ HashTable.sameAs s.secondary_hash_tables_ s1.secondary_hash_tables_)
    (x : Int) : s.Contains x = s1.Contains x := by
  have hlen := ht.length_eq
  unfold FixedSet.Contains
  rw [← hp, ← hlen]
  by_cases h0 : s.secondary_hash_tables_.length = 0
  · simp only [if_pos h0]
  · simp only [if_neg h0]
    cases hh : s.primary_hash_.hashKey x with
    | error f => rfl
    | ok h =>
      simp only []
      by_cases hi : toSizeT (toInt h) < s.secondary_hash_tables_.length
      · have hi1 : toSizeT (toInt h) < s1.secondary_hash_tables_.length := hlen ▸ hi
        rw [List.getElem?_eq_getElem hi, List.getElem?_eq_getElem hi1]
        simp only []
        exact (List.forall₂_iff_get.mp ht).2 _ hi hi1 |>.contains x
      · rw [List.getElem?_eq_none (by omega), List.getElem?_eq_none (by omega)]

/-- C13: two calls of `FixedSet::Initialize` with the same key sequence `K`
that start from the same state of the random source (the same list of coming
draws), on sets with the same prior state or, for a non-empty `K`, with any
prior states: if one returns, so does the other; they accept the same primary
hash and, for every inner table with slots, the same secondary hash and the
same slot contents; they leave the random source in the same state; and they
answer `Contains(x)` identically for every `x`.  Two builds on fresh sets
produce the same set. -/
theorem builds_deterministic (K : List Int) (draws rest : List Draw) (s0 s1 s : FixedSet)
    (h0 : K = [] → s0 = s1) (H : s0.Initialize K draws = .ok (s, rest)) :
    ∃ u : FixedSet, s1.Initialize K draws = .ok (u, rest) ∧
      s.primary_hash_ = u.primary_hash_ ∧
      List.Forall₂ HashTable.sameAs s.secondary_hash_tables_ u.secondary_hash_tables_ ∧
      (∀ x : Int, s.Contains x = u.Contains x) ∧
      (s0 = s1 → s = u) := by
  by_cases hK : K = []
  · have h01 := h0 hK
    subst h01
    refine ⟨s, H, rfl, ?_, fun _ => rfl, fun _ => rfl⟩
    exact List.forall₂_same.mpr (fun t _ => ⟨rfl, fun _ => rfl⟩)
  · have hlen : ¬ K.length = 0 := by simpa using hK
    have H1 := H
    unfold FixedSet.Initialize at H1
    rw [if_neg hlen] at H1
    split at H1
    · cases H1
    · rename_i primary draws1 hprim
      split at H1
      · cases H1
      · rename_i subsets hsub
        split at H1
        · cases H1
        · rename_i tables draws2 htab
          simp only [Except.ok.injEq, Prod.mk.injEq] at H1
          obtain ⟨rfl, rfl⟩ := H1
          obtain ⟨us1, hus1, hall⟩ := initTables_sameAs _
            (resizeTables s1.secondary_hash_tables_ subsets.length) _ _ _ _ _
            (resizeTables_length _ _) (resizeTables_length _ _) htab
          have hu : s1.Initialize K draws
              = .ok (⟨primary, us1⟩, draws2) := by
            unfold FixedSet.Initialize
            rw [if_neg hlen]
            simp only [hprim, hsub, hus1]
          have hc : ∀ x : Int, FixedSet.Contains ⟨primary, tables⟩ x
              = FixedSet.Contains ⟨primary, us1⟩ x :=
            fun x => @contains_of_sameAs ⟨primary, tables⟩ ⟨primary, us1⟩ rfl hall x
          refine ⟨⟨primary, us1⟩, hu, rfl, hall, hc, fun h01 => ?_⟩
          subst h01
          rw [H] at hu
          exact (Prod.mk.inj (Except.ok.inj hu)).1

/-- Witness of C13: `Initialize([1, 2])` with the draws `(2, 0)`, `(1, 0)` on a
fresh set and on the set built from `[5]`. -/
theorem builds_deterministic_witness :
    ∃ u : FixedSet,
      FixedSet.Initialize ⟨⟨1, 0, 1⟩, [⟨⟨1, 0, 1⟩, [5]⟩]⟩ [1, 2] [⟨2, 0⟩, ⟨1, 0⟩]
        = .ok (u, []) ∧
      (⟨⟨2, 0, 2⟩, [⟨⟨1, 0, 4⟩, [2147483647, 1, 2, 2147483647]⟩, ⟨⟨1, 0, 0⟩, []⟩]⟩
        : FixedSet).primary_hash_ = u.primary_hash_ ∧
      List.Forall₂ HashTable.sameAs
        (⟨⟨2, 0, 2⟩, [⟨⟨1, 0, 4⟩, [2147483647, 1, 2, 2147483647]⟩, ⟨⟨1, 0, 0⟩, []⟩]⟩
          : FixedSet).secondary_hash_tables_ u.secondary_hash_tables_ ∧
      (∀ x : Int,
        FixedSet.Contains
          ⟨⟨2, 0, 2⟩, [⟨⟨1, 0, 4⟩, [2147483647, 1, 2, 2147483647]⟩, ⟨⟨1, 0, 0⟩, []⟩]⟩ x
          = u.Contains x) ∧
      (FixedSet.new = ⟨⟨1, 0, 1⟩, [⟨⟨1, 0, 1⟩, [5]⟩]⟩ →
        (⟨⟨2, 0, 2⟩, [⟨⟨1, 0, 4⟩, [2147483647, 1, 2, 2147483647]⟩, ⟨⟨1, 0, 0⟩, []⟩]⟩
          : FixedSet) = u) :=
  builds_deterministic [1, 2] [⟨2, 0⟩, ⟨1, 0⟩] [] FixedSet.new
    ⟨⟨1, 0, 1⟩, [⟨⟨1, 0, 1⟩, [5]⟩]⟩ _ (by decide) rfl

/-! ## Universality of the hash family (C12) -/

theorem hash_minus_one_eq_hash_min (a b m : Nat) (ha : a ≤ PRIME_BASE_ - 1) (hba : b < a) :
    LinearHashFunction.hashKey ⟨a, b, m⟩ (-1)
      = LinearHashFunction.hashKey ⟨a, b, m⟩ (-2147483648) := by
  have h1 : toSizeT (-1) = 18446744073709551615 := by decide
  have h2 : toSizeT (-2147483648) = 18446744071562067968 := by decide
  unfold PRIME_BASE_ at ha
  have hA : (a * 18446744073709551615 + b) % 18446744073709551616
      = 18446744073709551616 - a + b := by omega
  have hB : (a * 18446744071562067968 + b) % 18446744073709551616
      = 18446744073709551616 - a * 2147483648 + b := by omega
  have hAB : 18446744073709551616 - a + b
      = (18446744073709551616 - a * 2147483648 + b) + a * 2147483647 := by omega
  have hmod : (18446744073709551616 - a + b) % 2147483647
      = (18446744073709551616 - a * 2147483648 + b) % 2147483647 := by
    rw [hAB, Nat.add_mul_mod_self_right]
  simp only [LinearHashFunction.hashKey, LinearHashFunction.call, h1, h2, SIZE_MOD,
    PRIME_BASE_, hA, hB, hmod]

theorem zero_max_collide (m : Nat) (ab : Nat × Nat)
    (h : (1 ≤ ab.1 ∧ ab.1 ≤ PRIME_BASE_ - 1) ∧ ab.2 < PRIME_BASE_) :
    LinearHashFunction.hashKey ⟨ab.1, ab.2, m + 1⟩ 0
      = LinearHashFunction.hashKey ⟨ab.1, ab.2, m + 1⟩ 2147483647 := by
  obtain ⟨j, -, h0, h1⟩ := hash_zero_eq_hash_max ⟨ab.1, ab.2, m + 1⟩ (m + 1)
    (Nat.succ_pos m) rfl h.1.2 (Nat.le_sub_one_of_lt h.2)
  rw [h0, h1]

/-- C12 (the code departs from it): the distinct keys `0` and `2147483647` get
the same hash value under every member of the family, for every image size, so
for image size `2` all `(P-1) * P` members collide, more than the
`(P-1) * P / 2` the bound allows; and the distinct keys `-1` and `-2147483648`
get the same hash value under every member with `b < a`, for every image
size. -/
theorem family_not_universal_on_int_keys :
    (0 : Int) ≠ 2147483647 ∧ INT_MIN ≤ (0 : Int) ∧ (2147483647 : Int) ≤ INT_MAX ∧
    (∀ m : Nat, collisionCount (m + 1) 0 2147483647 = (PRIME_BASE_ - 1) * PRIME_BASE_) ∧
    ¬ (collisionCount 2 0 2147483647 ≤ (PRIME_BASE_ - 1) * PRIME_BASE_ / 2) ∧
    (∀ a b m : Nat, 1 ≤ a → a ≤ PRIME_BASE_ - 1 → b < a →
      LinearHashFunction.hashKey ⟨a, b, m⟩ (-1)
        = LinearHashFunction.hashKey ⟨a, b, m⟩ (-2147483648)) := by
  have hcount : ∀ m : Nat,
      collisionCount (m + 1) 0 2147483647 = (PRIME_BASE_ - 1) * PRIME_BASE_ := by
    intro m
    unfold collisionCount
    rw [Finset.filter_true_of_mem (fun ab =>
      zero_max_collide m ab ∘ And.imp Finset.mem_Icc.mp Finset.mem_range.mp
        ∘ Finset.mem_product.mp)]
    rw [Finset.card_product, Nat.card_Icc, Finset.card_range]
    simp only [PRIME_BASE_]
  refine ⟨by decide, by decide, by decide, hcount, ?_,
    fun a b m _ ha hba => hash_minus_one_eq_hash_min a b m ha hba⟩
  rw [hcount 1]
  simp only [PRIME_BASE_]
  omega

/-- Witness of C12: the member `(2, 1)` with image size `3` on the keys `-1`
and `-2147483648`. -/
theorem family_not_universal_witness :
    LinearHashFunction.hashKey ⟨2, 1, 3⟩ (-1)
      = LinearHashFunction.hashKey ⟨2, 1, 3⟩ (-2147483648) :=
  family_not_universal_on_int_keys.2.2.2.2.2 2 1 3 (by decide) (by decide) (by decide)

/-! ## Index and modulus safety (C18) -/

end FKS
